import Mathlib

/-!
Verification development for a sportsbook arbitrage / value-bet detector.

The Python source is shallowly embedded: money and probabilities are
modelled as exact rationals (`ℚ`), American odds as integers (`ℤ`),
timestamps as integer epoch seconds (`ℤ`), fallible code as `Option`.
Python's `round(x, n)` (round to `n` decimal places) is modelled with
Mathlib's `round` on `ℚ`; Python rounds half-to-even while Mathlib
rounds half-up, but no theorem below depends on the tie-breaking rule
(ties are either proved impossible or absorbed into a `≤ 1/2` bound).
-/

set_option autoImplicit false

namespace ArbBot

/-- Model of Python `round(x, 2)` (round to cents). -/
def round2 (x : ℚ) : ℚ := (round (x * 100) : ℤ) / 100

/-- Model of Python `round(x, 6)` (used for the reported edge). -/
def round6 (x : ℚ) : ℚ := (round (x * 1000000) : ℤ) / 1000000

/-- `american_to_implied_prob` from `core/arb_engine.py`:
negative odds give `|price| / (|price| + 100)`, otherwise
`100 / (price + 100)`. -/
def american_to_implied_prob (price : ℤ) : ℚ :=
  if price < 0 then ((|price| : ℤ) : ℚ) / (((|price| : ℤ) : ℚ) + 100)
  else (100 : ℚ) / ((price : ℚ) + 100)

/-- `implied_prob_to_american` from `core/arb_engine.py`.  The Python
function raises `ValueError` when `prob ≤ 0` or `prob ≥ 1`; that is
modelled as `none`. -/
def implied_prob_to_american (prob : ℚ) : Option ℤ :=
  if prob ≤ 0 ∨ 1 ≤ prob then none
  else if 1/2 ≤ prob then some (-(round (prob * 100 / (1 - prob))))
  else some (round (100 * (1 - prob) / prob))

/-- `american_to_decimal` from `core/arb_engine.py`. -/
def american_to_decimal (price : ℤ) : ℚ := 1 / american_to_implied_prob price


/-! ## Data model (api/odds_api_client.py) -/

/-- One priced outcome inside a bookmaker's market. -/
structure Outcome where
  name : String
  price : ℤ
  point : Option ℚ
deriving DecidableEq, Repr

/-- A market quote: a type key (h2h, spreads, totals) and its outcomes. -/
structure Market where
  key : String
  outcomes : List Outcome
deriving DecidableEq, Repr

/-- A bookmaker's quotes for one event. -/
structure Bookmaker where
  key : String
  markets : List Market
deriving DecidableEq, Repr

/-- An event snapshot.  `commence_time` is a required field of the Python
dataclass (epoch seconds here); a `datetime` is always truthy in Python,
so truthiness tests on it are modelled as `True`. -/
structure Event where
  id : String
  sport_key : String
  commence_time : ℤ
  home_team : String
  away_team : String
  bookmakers : List Bookmaker
deriving DecidableEq, Repr

/-- The `Event.name` property. -/
def Event.name (e : Event) : String := e.home_team ++ " vs " ++ e.away_team

/-! ## Engine output models and configuration (core/arb_engine.py) -/

/-- One leg of an arbitrage or value bet. -/
structure ArbLeg where
  bookmaker : String
  outcome : String
  odds : ℤ
  implied_prob : ℚ
  stake : ℚ
  point : Option ℚ
deriving DecidableEq, Repr

/-- A detected opportunity.  `detected_at` (a wall-clock default never
read by the verified pipeline) is omitted. -/
structure ArbOpportunity where
  event_id : String
  event_name : String
  sport : String
  market_type : String
  strategy : String
  edge : ℚ
  legs : List ArbLeg
  expires_at : Option ℤ
deriving DecidableEq, Repr

def MAX_SINGLE_LEG : ℚ := 50
def MAX_ARB_TOTAL : ℚ := 100

/-- The four configuration fields held by `ArbEngine`. -/
structure EngineCfg where
  min_edge : ℚ
  min_edge_value_bet : ℚ
  max_single_bet : ℚ
  max_arb_total : ℚ
deriving DecidableEq, Repr

/-- `ArbEngine.__init__`: the two stake caps are hard-capped. -/
def mkEngine (min_edge min_edge_value_bet max_single_bet max_arb_total : ℚ) :
    EngineCfg :=
  { min_edge := min_edge
    min_edge_value_bet := min_edge_value_bet
    max_single_bet := min max_single_bet MAX_SINGLE_LEG
    max_arb_total := min max_arb_total MAX_ARB_TOTAL }

/-- The default configuration of `ArbEngine`. -/
def defaultCfg : EngineCfg := mkEngine (5/1000) (5/100) MAX_SINGLE_LEG MAX_ARB_TOTAL

/-- The per-offer dictionaries built inside the detectors. -/
structure Offer where
  bookmaker : String
  outcome : String
  odds : ℤ
  implied_prob : ℚ
  point : Option ℚ
deriving DecidableEq, Repr

/-- Build the offer dictionary for one outcome of one bookmaker (the
dict literal appearing in each collection loop of the engine). -/
def mkOffer (bm : Bookmaker) (o : Outcome) : Offer :=
  { bookmaker := bm.key
    outcome := o.name
    odds := o.price
    implied_prob := american_to_implied_prob o.price
    point := o.point }

/-- `ArbEngine._find_market`: first market whose key matches. -/
def find_market (markets : List Market) (marketType : String) : Option Market :=
  markets.find? (fun m => m.key == marketType)

/-- Python's `min(lst, key=f)`: the first element attaining the minimum
key.  Returns `none` on the empty list (where Python raises). -/
def pyMin {α : Type} (f : α → ℚ) : List α → Option α
  | [] => none
  | x :: xs =>
    match pyMin f xs with
    | none => some x
    | some y => if f y < f x then some y else some x

/-- The prefix of a string before the first "|" — models
Python's `s.split("|")[0]` used to clean outcome names for display. -/
def splitPipe (s : String) : String :=
  String.mk (s.toList.takeWhile (fun c => c ≠ '|'))

/-- Insertion-ordered dictionary update, mirroring Python's
`d.setdefault(k, init)` followed by an in-place modification `f`. -/
def updGroup {κ β : Type} [DecidableEq κ] (k : κ) (init : β) (f : β → β) :
    List (κ × β) → List (κ × β)
  | [] => [(k, f init)]
  | (k', v) :: rest =>
    if k' = k then (k', f v) :: rest else (k', v) :: updGroup k init f rest

/-- `d.setdefault(k, []).append(v)` on an insertion-ordered dict. -/
def addToGroup {κ : Type} [DecidableEq κ] (k : κ) (v : Offer) :
    List (κ × List Offer) → List (κ × List Offer) :=
  updGroup k [] (fun vs => vs ++ [v])

/-! ## Cross-book arbitrage (core/arb_engine.py) -/

/-- The unclamped stake split of `_check_two_outcome_arb`:
`stake_i = T * prob_i / (prob_a + prob_b)`. -/
def twoLegRawStakes (total pa pb : ℚ) : ℚ × ℚ :=
  (total * pa / (pa + pb), total * pb / (pa + pb))

/-- Stake sizing of `_check_two_outcome_arb` lines 394-409: raw split,
single-leg clamp by uniform scaling, then rounding to cents.  (The
Python code also recomputes `total_stake` after scaling; that value is
never read afterwards.) -/
def clampedStakes (cfg : EngineCfg) (pa pb : ℚ) : ℚ × ℚ :=
  let raw := twoLegRawStakes cfg.max_arb_total pa pb
  if raw.1 > cfg.max_single_bet ∨ raw.2 > cfg.max_single_bet then
    let scale := cfg.max_single_bet / max raw.1 raw.2
    (round2 (raw.1 * scale), round2 (raw.2 * scale))
  else (round2 raw.1, round2 raw.2)

/-- The single opportunity record built at the end of
`_check_two_outcome_arb` from the two best offers and the two
outcome-dict keys. -/
def crossBookOpp (cfg : EngineCfg) (ev : Event) (marketType : String)
    (nameA nameB : String) (bestA bestB : Offer) : ArbOpportunity :=
  let stakes := clampedStakes cfg bestA.implied_prob bestB.implied_prob
  { event_id := ev.id
    event_name := ev.name
    sport := ev.sport_key
    market_type := marketType
    strategy := "cross_book_arb"
    edge := round6 (1 - (bestA.implied_prob + bestB.implied_prob))
    legs := [
      { bookmaker := bestA.bookmaker, outcome := splitPipe nameA,
        odds := bestA.odds, implied_prob := bestA.implied_prob,
        stake := stakes.1, point := bestA.point },
      { bookmaker := bestB.bookmaker, outcome := splitPipe nameB,
        odds := bestB.odds, implied_prob := bestB.implied_prob,
        stake := stakes.2, point := bestB.point }]
    expires_at := some ev.commence_time }

/-- `ArbEngine._check_two_outcome_arb`.  The Python argument is a dict
with (exactly) two keys; it is modelled as an insertion-ordered
association list, and the `len(outcome_data) != 2` guard as the
two-entry pattern.  `min` over an offer list is `pyMin`; the offer
lists produced by the callers are nonempty, so the `none` branches
(where Python's `min` would raise) return no opportunity. -/
def checkTwoOutcomeArb (cfg : EngineCfg) (ev : Event) (marketType : String)
    (outcomeData : List (String × List Offer)) : List ArbOpportunity :=
  match outcomeData with
  | [(nameA, offersA), (nameB, offersB)] =>
    match pyMin (fun x => x.implied_prob) offersA,
          pyMin (fun x => x.implied_prob) offersB with
    | some bestA, some bestB =>
      if bestA.bookmaker = bestB.bookmaker then []
      else
        if 1 - (bestA.implied_prob + bestB.implied_prob) < cfg.min_edge then []
        else [crossBookOpp cfg ev marketType nameA nameB bestA bestB]
    | _, _ => []
  | _ => []

/-- One dict update of the spread grouping: key `abs(point)`, the
offer appended to the "neg" side exactly when `point < 0`. -/
def spreadAdd (bm : Bookmaker) (o : Outcome) (pt : ℚ)
    (acc : List (ℚ × (List Offer × List Offer))) :
    List (ℚ × (List Offer × List Offer)) :=
  updGroup |pt| ([], [])
    (fun sides =>
      if pt < 0 then (sides.1 ++ [mkOffer bm o], sides.2)
      else (sides.1, sides.2 ++ [mkOffer bm o])) acc

/-- Outcomes without a point are skipped. -/
def spreadCollectOutcome (bm : Bookmaker)
    (acc : List (ℚ × (List Offer × List Offer))) (o : Outcome) :
    List (ℚ × (List Offer × List Offer)) :=
  match o.point with
  | none => acc
  | some pt => spreadAdd bm o pt acc

/-- A bookmaker without a spreads market is skipped. -/
def spreadCollectBm (acc : List (ℚ × (List Offer × List Offer)))
    (bm : Bookmaker) : List (ℚ × (List Offer × List Offer)) :=
  match find_market bm.markets "spreads" with
  | none => acc
  | some mkt => mkt.outcomes.foldl (spreadCollectOutcome bm) acc

/-- The spread-outcome grouping of `_detect_spread_arb`: an
insertion-ordered dict keyed by `abs(point)`, each value the pair
(negative-point offers, positive-point offers).  `sign` is "neg"
exactly when `point < 0`. -/
def spreadGroups (ev : Event) : List (ℚ × (List Offer × List Offer)) :=
  ev.bookmakers.foldl spreadCollectBm []

/-- `ArbEngine._detect_spread_arb`: for each absolute-point group with
both sides present, pair the negative side with the positive side
(keyed by each side's first outcome name; if the two names coincide
the Python pair dict collapses to one key and the group is skipped). -/
def spreadPairOpps (cfg : EngineCfg) (ev : Event)
    (entry : ℚ × (List Offer × List Offer)) : List ArbOpportunity :=
  match entry.2.1, entry.2.2 with
  | a :: _, b :: _ =>
    if a.outcome = b.outcome then []
    else
      checkTwoOutcomeArb cfg ev "spreads"
        [(a.outcome, entry.2.1), (b.outcome, entry.2.2)]
  | _, _ => []

def detectSpreadArb (cfg : EngineCfg) (ev : Event) : List ArbOpportunity :=
  (spreadGroups ev).foldl (fun acc entry =>
    acc ++ spreadPairOpps cfg ev entry) []

/-- An outcome name appearing somewhere in the event's quotes. -/
def NameInEvent (ev : Event) (s : String) : Prop :=
  ∃ bm ∈ ev.bookmakers, ∃ m ∈ bm.markets, ∃ oc ∈ m.outcomes, oc.name = s

/-- Shape invariant of one spread group keyed by `c`: every offer on
the negative side sits at point `-c` with `c > 0`, every offer on the
positive side at point `c`, and all outcome names come from the
event. -/
def GoodGroup (ev : Event) (entry : ℚ × (List Offer × List Offer)) : Prop :=
  (∀ o ∈ entry.2.1,
    o.point = some (-entry.1) ∧ 0 < entry.1 ∧ NameInEvent ev o.outcome) ∧
  (∀ o ∈ entry.2.2,
    o.point = some entry.1 ∧ 0 ≤ entry.1 ∧ NameInEvent ev o.outcome)

/-! ## Value bets (core/arb_engine.py) -/

/-- The grouping of `_detect_value_bets`: offers keyed by outcome name
plus signed point.  (Python encodes the key as the string
`name` or `name|point`; the pair is the same key up to
injective encoding of the float.) -/
def valueGroups (ev : Event) (marketType : String) :
    List ((String × Option ℚ) × List Offer) :=
  ev.bookmakers.foldl (fun acc bm =>
    match find_market bm.markets marketType with
    | none => acc
    | some mkt =>
      mkt.outcomes.foldl (fun acc2 o =>
        addToGroup (o.name, o.point) (mkOffer bm o) acc2) acc) []

/-- The value-bet stake formula: scales with edge, saturating at a
10% edge, capped at the single-leg limit, rounded to cents. -/
def valueStake (cfg : EngineCfg) (edge : ℚ) : ℚ :=
  round2 (min (cfg.max_single_bet * min (edge / (1/10)) 1) cfg.max_single_bet)

/-- The arithmetic-mean consensus over a group of offers. -/
def consensusOf (entries : List Offer) : ℚ :=
  (entries.map (fun x => x.implied_prob)).sum / (entries.length : ℚ)

/-- The opportunity record built for one qualifying value-bet entry. -/
def valueBetOpp (cfg : EngineCfg) (ev : Event) (marketType : String)
    (edge : ℚ) (entry : Offer) : ArbOpportunity :=
  { event_id := ev.id
    event_name := ev.name
    sport := ev.sport_key
    market_type := marketType
    strategy := "value_bet"
    edge := round6 edge
    legs := [
      { bookmaker := entry.bookmaker, outcome := entry.outcome,
        odds := entry.odds, implied_prob := entry.implied_prob,
        stake := valueStake cfg edge, point := entry.point }]
    expires_at := some ev.commence_time }

/-- The value bets one group contributes: none unless the group has
at least 3 offers; otherwise each offer whose edge against the group
consensus reaches the threshold. -/
def valueGroupOpps (cfg : EngineCfg) (ev : Event) (marketType : String)
    (g : (String × Option ℚ) × List Offer) : List ArbOpportunity :=
  if g.2.length < 3 then []
  else
    g.2.filterMap (fun entry =>
      if consensusOf g.2 - entry.implied_prob < cfg.min_edge_value_bet then none
      else some (valueBetOpp cfg ev marketType
        (consensusOf g.2 - entry.implied_prob) entry))

/-- `ArbEngine._detect_value_bets`: within every group of at least 3
offers, compare each offer to the group's mean implied probability. -/
def detectValueBets (cfg : EngineCfg) (ev : Event) (marketType : String) :
    List ArbOpportunity :=
  (valueGroups ev marketType).foldl (fun acc g =>
    acc ++ valueGroupOpps cfg ev marketType g) []

/-! ## Cross-platform matching (core/arb_engine.py) -/

/-- One entry of the team-to-offers index built by
`scan_cross_platform` from every bookmaker's h2h market. -/
structure SBEntry where
  event : Event
  bookmaker : String
  outcome : String
  odds : ℤ
  implied_prob : ℚ
deriving DecidableEq, Repr

/-- A Kalshi binary market side (api/kalshi_client.py). -/
structure KalshiMarket where
  ticker : String
  implied_prob : Option ℚ
  volume_24h : ℤ
  close_time : Option ℤ
deriving DecidableEq, Repr

/-- A paired Kalshi game (api/kalshi_client.py). -/
structure KalshiGame where
  event_ticker : String
  series : String
  home_team_short : String
  away_team_short : String
  home_team_full : Option String
  away_team_full : Option String
  home_market : Option KalshiMarket
  away_market : Option KalshiMarket
deriving DecidableEq, Repr

/-- First-match lookup in an insertion-ordered association list
(a Python dict read). -/
def alookup {β : Type} (k : String) : List (String × β) → Option β
  | [] => none
  | (k', v) :: rest => if k' = k then some v else alookup k rest

/-- The date-proximity part of the "same game" gate in
`_match_kalshi_game`.  The Python guard is
`if kalshi_close and event.commence_time:` — an `Event.commence_time`
is a required `datetime` (always truthy), so the 12-hour check runs
exactly when the Kalshi close time is present. -/
def sameGameGate (kalshi_close : Option ℤ) (e : Event) : Bool :=
  match kalshi_close with
  | some cl => decide (|cl - e.commence_time| ≤ 43200)
  | none => true

/-- The offers retained by `_match_kalshi_game` for one side: the
event must contain the resolved opponent, and the date gate must
pass.  The consensus is computed over exactly this list. -/
def matchedSB (opponent : String) (kalshi_close : Option ℤ)
    (entries : List SBEntry) : List SBEntry :=
  entries.filter (fun en =>
    (opponent == en.event.home_team || opponent == en.event.away_team)
      && sameGameGate kalshi_close en.event)

/-- One side (home or away) of `_match_kalshi_game`.  Python's
`x or y` fallback for the event name is modelled by `Option.getD`
(team short names are nonempty strings in practice).  In the branch
recommending Kalshi, Python calls `implied_prob_to_american` which
raises outside (0, 1); the `none` branch (unreachable for prices with
`0 < prob < 1`) produces an opportunity with no leg. -/
def matchKalshiSide (cfg : EngineCfg) (g : KalshiGame)
    (sb_by_team : List (String × List SBEntry))
    (side_market : Option KalshiMarket) (side_team : Option String) :
    List ArbOpportunity :=
  match side_market, side_team with
  | some m, some team =>
    match m.implied_prob with
    | none => []
    | some kp =>
      if m.volume_24h < 5 then []
      else
        let sb_entries := (alookup team sb_by_team).getD []
        if sb_entries.isEmpty then []
        else
          let opponent? :=
            if g.home_team_full = some team then g.away_team_full
            else g.home_team_full
          match opponent? with
          | none => []
          | some opponent =>
            let matched := matchedSB opponent m.close_time sb_entries
            if matched.isEmpty then []
            else
              let sb_consensus :=
                (matched.map (fun e => e.implied_prob)).sum / (matched.length : ℚ)
              let edge := |kp - sb_consensus|
              if edge < cfg.min_edge_value_bet then []
              else
                let stake :=
                  min (cfg.max_single_bet * min (edge / (1/10)) 1) cfg.max_single_bet
                let legs :=
                  if kp < sb_consensus then
                    match implied_prob_to_american kp with
                    | none => []
                    | some od =>
                      [{ bookmaker := "kalshi", outcome := team ++ " (YES)",
                         odds := od, implied_prob := kp,
                         stake := round2 stake, point := none }]
                  else
                    match pyMin (fun e => e.implied_prob) matched with
                    | none => []
                    | some best =>
                      [{ bookmaker := best.bookmaker, outcome := team,
                         odds := best.odds, implied_prob := best.implied_prob,
                         stake := round2 stake, point := none }]
                [{ event_id := g.event_ticker
                   event_name := (g.away_team_full.getD g.away_team_short) ++
                     " vs " ++ (g.home_team_full.getD g.home_team_short)
                   sport := g.series
                   market_type := "h2h_cross_platform"
                   strategy := "cross_platform_value"
                   edge := round6 edge
                   legs := legs
                   expires_at := m.close_time }]
  | _, _ => []

/-- Python's `opponent_full = away if team_full == home_team_full
else home` condition is `some team = g.home_team_full` above.
`_match_kalshi_game` processes the home side then the away side. -/
def matchKalshiGame (cfg : EngineCfg) (g : KalshiGame)
    (sb_by_team : List (String × List SBEntry)) : List ArbOpportunity :=
  matchKalshiSide cfg g sb_by_team g.home_market g.home_team_full ++
    matchKalshiSide cfg g sb_by_team g.away_market g.away_team_full

/-! ## Opportunity tracker (core/opportunity_tracker.py) -/

/-- One persisted opportunity record. -/
structure OppRecord where
  id : String
  first_seen : ℤ
  last_seen : ℤ
  notified : Bool
  event_id : String
  event_name : String
  sport : String
  market_type : String
  strategy : String
  edge : ℚ
  legs : List ArbLeg
  expires_at : Option ℤ
deriving DecidableEq, Repr

/-- Stable insertion sort, modelling Python's `sorted` on strings. -/
def insertSorted (s : String) : List String → List String
  | [] => [s]
  | x :: xs => if s ≤ x then s :: x :: xs else x :: insertSorted s xs

def sortStrings (l : List String) : List String := l.foldr insertSorted []

/-- `_make_id`: the dedup identity string
`event_id|market_type|strategy|sorted-bookmakers`.  The Python code
md5-hashes this string and keeps 12 hex digits; the hash is modelled
by the underlying key string itself (the identity it stands for). -/
def makeId (o : ArbOpportunity) : String :=
  o.event_id ++ "|" ++ o.market_type ++ "|" ++ o.strategy ++ "|" ++
    String.intercalate "," (sortStrings (o.legs.map (fun l => l.bookmaker)))

/-- `_serialize_opp`. -/
def serializeOpp (now : ℤ) (o : ArbOpportunity) (id : String) : OppRecord :=
  { id := id
    first_seen := now
    last_seen := now
    notified := false
    event_id := o.event_id
    event_name := o.event_name
    sport := o.sport
    market_type := o.market_type
    strategy := o.strategy
    edge := o.edge
    legs := o.legs
    expires_at := o.expires_at }

/-- In-memory tracker state: TTL plus the id-to-record dict. -/
structure TrackerState where
  ttl_seconds : ℤ
  records : List (String × OppRecord)
deriving DecidableEq, Repr

/-- Python dict write `d[k] = v`: replace in place, or append a new
key at the end. -/
def aset {β : Type} (k : String) (v : β) :
    List (String × β) → List (String × β)
  | [] => [(k, v)]
  | (k', v') :: rest =>
    if k' = k then (k', v) :: rest else (k', v') :: aset k v rest

/-- A fresh tracker. -/
def freshTracker (ttl : ℤ) : TrackerState := { ttl_seconds := ttl, records := [] }

/-- `OpportunityTracker.ingest` for a single opportunity: the body of
the loop.  Returns the updated state and the record to emit, if any.
For a known id, `last_seen` and `edge` are refreshed before the TTL
test; within the TTL nothing is emitted, otherwise the notified bit
is cleared and the refreshed record is emitted. -/
def ingestOne (now : ℤ) (st : TrackerState) (o : ArbOpportunity) :
    TrackerState × Option OppRecord :=
  let oppId := makeId o
  match alookup oppId st.records with
  | some existing =>
    let age := now - existing.last_seen
    let updated := { existing with last_seen := now, edge := o.edge }
    if age < st.ttl_seconds then
      ({ st with records := aset oppId updated st.records }, none)
    else
      let reemerged := { updated with notified := false }
      ({ st with records := aset oppId reemerged st.records }, some reemerged)
  | none =>
    let record := serializeOpp now o oppId
    ({ st with records := aset oppId record st.records }, some record)

/-- `OpportunityTracker.ingest` over a batch, in order. -/
def ingest (now : ℤ) (opps : List ArbOpportunity) (st : TrackerState) :
    List OppRecord × TrackerState :=
  opps.foldl (fun acc o =>
    match ingestOne now acc.2 o with
    | (st', some r) => (acc.1 ++ [r], st')
    | (st', none) => (acc.1, st')) ([], st)

/-- `OpportunityTracker.mark_notified`: guarded single-entry update;
an unknown id leaves the state untouched. -/
def mark_notified (oppId : String) (st : TrackerState) : TrackerState :=
  match alookup oppId st.records with
  | none => st
  | some r =>
    { st with records := aset oppId { r with notified := true } st.records }

/-! ## Budget tracker (core/budget_tracker.py) -/

inductive BetResult where
  | pending
  | win
  | loss
  | void
deriving DecidableEq, Repr

/-- A bet record.  `bet_id` models the Python string
`bet_%06d` by its counter value (the encoding is injective).
The dataclass default for `result` is `None`; `record_bet` always
stores "pending". -/
structure BetRecord where
  bet_id : ℕ
  event_id : String
  outcome : String
  bookmaker : String
  odds : ℤ
  stake : ℚ
  result : Option BetResult
  payout : ℚ
  pnl : ℚ
  placed_at : ℤ
  settled_at : Option ℤ
deriving DecidableEq, Repr

structure BudgetState where
  total_budget : ℚ
  api_budget : ℚ
  betting_bankroll : ℚ
  reserve : ℚ
  api_spent : ℚ
  betting_pnl : ℚ
  bets_placed : ℕ
  bets_settled : ℕ
  bets : List BetRecord
  created_at : ℤ
  last_updated : ℤ
deriving DecidableEq, Repr

/-- The fresh `BudgetState()` with its default allocations. -/
def initialState (t : ℤ) : BudgetState :=
  { total_budget := 1000
    api_budget := 60
    betting_bankroll := 200
    reserve := 740
    api_spent := 0
    betting_pnl := 0
    bets_placed := 0
    bets_settled := 0
    bets := []
    created_at := t
    last_updated := t }

/-- Property `active_bankroll`. -/
def BudgetState.active_bankroll (s : BudgetState) : ℚ :=
  s.betting_bankroll + s.betting_pnl

/-- Total stake over the pending records of a bet list. -/
def pendingStakes (bets : List BetRecord) : ℚ :=
  ((bets.filter (fun b => b.result = some BetResult.pending)).map
    (fun b => b.stake)).sum

/-- Property `pending_stakes`: total stake over pending records. -/
def BudgetState.pending_stakes (s : BudgetState) : ℚ :=
  pendingStakes s.bets

/-- Property `available_bankroll`. -/
def BudgetState.available_bankroll (s : BudgetState) : ℚ :=
  s.active_bankroll - s.pending_stakes

/-- Property `can_release_reserve`. -/
def BudgetState.can_release_reserve (s : BudgetState) : Bool :=
  decide (10 ≤ s.bets_settled) && decide (0 < s.betting_pnl) &&
    decide (0 < s.reserve)

/-- `BudgetTracker.save`: persistence is I/O; only the
`last_updated` refresh is modelled. -/
def save (now : ℤ) (s : BudgetState) : BudgetState :=
  { s with last_updated := now }

/-- `BudgetTracker._find_bet`: first record with the given id. -/
def findBet (betId : ℕ) (bets : List BetRecord) : Option BetRecord :=
  bets.find? (fun b => b.bet_id == betId)

/-- In-place mutation of the object `find` returned: update the first
matching element only. -/
def updateFirst {α : Type} (p : α → Bool) (f : α → α) : List α → List α
  | [] => []
  | x :: xs => if p x then f x :: xs else x :: updateFirst p f xs

/-- `BudgetTracker.record_bet`: refuse if the stake exceeds the
available bankroll, clamp to the $50 single-bet limit, append a
pending record with the next monotonic id. -/
def record_bet (now : ℤ) (event_id outcome bookmaker : String) (odds : ℤ)
    (stake : ℚ) (s : BudgetState) : Option BetRecord × BudgetState :=
  if stake > s.available_bankroll then (none, s)
  else
    let stake' := if stake > 50 then 50 else stake
    let bet : BetRecord :=
      { bet_id := s.bets_placed + 1
        event_id := event_id
        outcome := outcome
        bookmaker := bookmaker
        odds := odds
        stake := stake'
        result := some BetResult.pending
        payout := 0
        pnl := 0
        placed_at := now
        settled_at := none }
    (some bet,
      save now { s with
        bets := s.bets ++ [bet]
        bets_placed := s.bets_placed + 1 })

/-- The winning payout formula of `record_win`. -/
def winPayout (odds : ℤ) (stake : ℚ) : ℚ :=
  if odds < 0 then stake + stake * 100 / (((|odds| : ℤ)) : ℚ)
  else stake + stake * (odds : ℚ) / 100

/-- `BudgetTracker.record_win`: no-op when the bet is missing or not
pending; otherwise settle as a win (the stored `pnl` is rounded from
the unrounded payout, and that same rounded value is added to
`betting_pnl`). -/
def record_win (now : ℤ) (betId : ℕ) (s : BudgetState) : BudgetState :=
  match findBet betId s.bets with
  | none => s
  | some bet =>
    if bet.result ≠ some BetResult.pending then s
    else
      let payout := winPayout bet.odds bet.stake
      let newPnl := round2 (payout - bet.stake)
      save now { s with
        bets := updateFirst (fun b => b.bet_id == betId)
          (fun b => { b with
            payout := round2 payout
            pnl := newPnl
            result := some BetResult.win
            settled_at := some now }) s.bets
        betting_pnl := s.betting_pnl + newPnl
        bets_settled := s.bets_settled + 1 }

/-- `BudgetTracker.record_loss`: no-op when the bet is missing or not
pending; otherwise settle as a loss. -/
def record_loss (now : ℤ) (betId : ℕ) (s : BudgetState) : BudgetState :=
  match findBet betId s.bets with
  | none => s
  | some bet =>
    if bet.result ≠ some BetResult.pending then s
    else
      save now { s with
        bets := updateFirst (fun b => b.bet_id == betId)
          (fun b => { b with
            payout := 0
            pnl := -b.stake
            result := some BetResult.loss
            settled_at := some now }) s.bets
        betting_pnl := s.betting_pnl + (-bet.stake)
        bets_settled := s.bets_settled + 1 }

/-- `BudgetTracker.record_void`: the source has no pending guard —
any found record is (re)settled as a void and `bets_settled` is
incremented; `betting_pnl` is not touched. -/
def record_void (now : ℤ) (betId : ℕ) (s : BudgetState) : BudgetState :=
  match findBet betId s.bets with
  | none => s
  | some _ =>
    save now { s with
      bets := updateFirst (fun b => b.bet_id == betId)
        (fun b => { b with
          payout := b.stake
          pnl := 0
          result := some BetResult.void
          settled_at := some now }) s.bets
      bets_settled := s.bets_settled + 1 }

/-- `BudgetTracker.release_from_reserve`. -/
def release_from_reserve (now : ℤ) (amount : ℚ) (s : BudgetState) :
    Bool × BudgetState :=
  if s.can_release_reserve = false then (false, s)
  else
    let amount1 := min amount 100
    let amount2 := min amount1 s.reserve
    if amount2 ≤ 0 then (false, s)
    else
      (true, save now { s with
        reserve := s.reserve - amount2
        betting_bankroll := s.betting_bankroll + amount2 })

/-- The bet-lifecycle operations of the tracker. -/
inductive BudgetOp where
  | bet (now : ℤ) (event_id outcome bookmaker : String) (odds : ℤ) (stake : ℚ)
  | win (now : ℤ) (betId : ℕ)
  | loss (now : ℤ) (betId : ℕ)
  | void (now : ℤ) (betId : ℕ)

def applyOp (s : BudgetState) : BudgetOp → BudgetState
  | BudgetOp.bet now eid out bk odds stake =>
    (record_bet now eid out bk odds stake s).2
  | BudgetOp.win now betId => record_win now betId s
  | BudgetOp.loss now betId => record_loss now betId s
  | BudgetOp.void now betId => record_void now betId s

/-- Run a sequence of bet-lifecycle operations from the fresh state. -/
def runOps (t0 : ℤ) (ops : List BudgetOp) : BudgetState :=
  ops.foldl applyOp (initialState t0)

/-- A void operation is safe when its target, if found, is still
pending (the guard `record_win` and `record_loss` have and
`record_void` lacks). -/
def voidSafe (s : BudgetState) : BudgetOp → Prop
  | BudgetOp.void _ betId =>
    ∀ b, findBet betId s.bets = some b → b.result = some BetResult.pending
  | _ => True

/-- A sequence of operations is safe when every void in it is safe at
its execution point. -/
def SafeSeq : BudgetState → List BudgetOp → Prop
  | _, [] => True
  | s, op :: ops => voidSafe s op ∧ SafeSeq (applyOp s op) ops

/-- Sum of `pnl` over the settled (non-pending) records. -/
def settledPnl (bets : List BetRecord) : ℚ :=
  ((bets.filter (fun b => b.result ≠ some BetResult.pending)).map
    (fun b => b.pnl)).sum

/-- Number of settled (non-pending) records. -/
def settledCount (bets : List BetRecord) : ℕ :=
  (bets.filter (fun b => b.result ≠ some BetResult.pending)).length

/-- The record-level invariant of claim C2: the two stored counters
and the running P&L agree with the record list, and the pending
stakes property is the pending-stake sum (definitional). -/
def BudgetInv (s : BudgetState) : Prop :=
  s.pending_stakes = pendingStakes s.bets ∧
    s.betting_pnl = settledPnl s.bets ∧
    s.bets_placed = s.bets.length ∧
    s.bets_settled = settledCount s.bets

/-! ## Concrete fixtures used by witnesses and counterexamples -/

/-- A bare event fixture (bookmaker lists are supplied per claim). -/
def evFix : Event :=
  { id := "ev1", sport_key := "icehockey_nhl", commence_time := 1700000000,
    home_team := "A", away_team := "B", bookmakers := [] }

/-- Witness offers for the stake law: +150 on each side at two books. -/
def offerWA : Offer :=
  { bookmaker := "b1", outcome := "A", odds := 150, implied_prob := 2/5,
    point := none }

def offerWB : Offer :=
  { bookmaker := "b2", outcome := "B", odds := 150, implied_prob := 2/5,
    point := none }

def dataW : List (String × List Offer) := [("A", [offerWA]), ("B", [offerWB])]

/-- Counterexample offers for the ±$0.01 payout tolerance:
+2000 against -1700. -/
def offerCA : Offer :=
  { bookmaker := "b1", outcome := "A", odds := 2000, implied_prob := 1/21,
    point := none }

def offerCB : Offer :=
  { bookmaker := "b2", outcome := "B", odds := -1700, implied_prob := 17/18,
    point := none }

def dataC : List (String × List Offer) := [("A", [offerCA]), ("B", [offerCB])]

/-- Witness event for the spread pairing: -2 / +2 at two books
(fields: id, sport, commence, home, away, bookmakers). -/
def evS : Event :=
  ⟨"ev2", "icehockey_nhl", 1700000000, "T1", "T2",
    [⟨"b1", [⟨"spreads", [⟨"T1", 150, some (-2)⟩]⟩]⟩,
     ⟨"b2", [⟨"spreads", [⟨"T2", 150, some 2⟩]⟩]⟩]⟩

/-- Counterexample event: a team literally named "A|x" against "A". -/
def evP : Event :=
  ⟨"ev3", "icehockey_nhl", 1700000000, "A|x", "A",
    [⟨"b1", [⟨"spreads", [⟨"A|x", 150, some (-2)⟩]⟩]⟩,
     ⟨"b2", [⟨"spreads", [⟨"A", 150, some 2⟩]⟩]⟩]⟩

/-- Witness event for the value-bet consensus: "A" priced by three
distinct books (-150, -150, +150). -/
def evV : Event :=
  ⟨"ev4", "basketball_nba", 1700000000, "A", "B",
    [⟨"b1", [⟨"h2h", [⟨"A", -150, none⟩]⟩]⟩,
     ⟨"b2", [⟨"h2h", [⟨"A", -150, none⟩]⟩]⟩,
     ⟨"b3", [⟨"h2h", [⟨"A", 150, none⟩]⟩]⟩]⟩

def offerV1 : Offer := ⟨"b1", "A", -150, 3/5, none⟩
def offerV2 : Offer := ⟨"b2", "A", -150, 3/5, none⟩
def offerV3 : Offer := ⟨"b3", "A", 150, 2/5, none⟩

/-- Counterexample event: book b1 lists the same outcome twice, so
the "A" group has 3 offers from only 2 distinct bookmakers. -/
def evD : Event :=
  ⟨"ev5", "basketball_nba", 1700000000, "A", "B",
    [⟨"b1", [⟨"h2h", [⟨"A", -150, none⟩, ⟨"A", -150, none⟩]⟩]⟩,
     ⟨"b2", [⟨"h2h", [⟨"A", 150, none⟩]⟩]⟩]⟩

def offerD1 : Offer := ⟨"b1", "A", -150, 3/5, none⟩
def offerD2 : Offer := ⟨"b1", "A", -150, 3/5, none⟩
def offerD3 : Offer := ⟨"b2", "A", 150, 2/5, none⟩

/-- A tracked opportunity fixture (fields: id, first_seen, last_seen,
notified, event_id, event_name, sport, market_type, strategy, edge,
legs, expires_at). -/
def recT : OppRecord :=
  ⟨"k1", 0, 0, false, "e", "n", "s", "h2h", "cross_book_arb", 1/50, [], none⟩

def stT : TrackerState := ⟨300, [("k1", recT)]⟩

/-- An opportunity whose dedup id is "e|h2h|cross_book_arb|". -/
def oT : ArbOpportunity :=
  ⟨"e", "n", "s", "h2h", "cross_book_arb", 1/50, [], none⟩

def recT2 : OppRecord :=
  ⟨"e|h2h|cross_book_arb|", 0, 100, false, "e", "n", "s", "h2h",
    "cross_book_arb", 1/50, [], none⟩

def stT2 : TrackerState := ⟨300, [("e|h2h|cross_book_arb|", recT2)]⟩

/-- A budget state eligible for a reserve release: ten settled bets
and positive P&L. -/
def sW : BudgetState :=
  { initialState 0 with bets_settled := 10, betting_pnl := 5 }

/-- A pending $10 bet at -110 with id 1 (fields: bet_id, event_id,
outcome, bookmaker, odds, stake, result, payout, pnl, placed_at,
settled_at). -/
def betB : BetRecord :=
  ⟨1, "e", "o", "b", -110, 10, some BetResult.pending, 0, 0, 0, none⟩

/-- A budget state holding exactly the pending bet `betB`. -/
def sB : BudgetState := { initialState 0 with bets := [betB], bets_placed := 1 }

/-- Cross-platform fixtures: a sportsbook event "B" (home) vs "H"
(away) at commence time 1000, one h2h offer on "H". -/
def evK : Event := ⟨"evk", "basketball_nba", 1000, "B", "H", []⟩

def sbE : SBEntry := ⟨evK, "b1", "H", 100, 1/2⟩

/-- A Kalshi market with no close time (fields: ticker, implied_prob,
volume_24h, close_time). -/
def kmC : KalshiMarket := ⟨"T", some (1/5), 10, none⟩

/-- The paired game: home side "H" holds `kmC`, opponent "B". -/
def gC : KalshiGame :=
  ⟨"EVT", "KXNBAGAME", "h", "a", some "H", some "B", some kmC, none⟩

def sbIdx : List (String × List SBEntry) := [("H", [sbE])]

/-! ## Rounding toolkit -/

theorem round_mono2 {x y : ℚ} (h : x ≤ y) : round x ≤ round y := by
  rw [round_eq, round_eq]
  exact Int.floor_mono (by linarith)

/-- Rounding to cents moves a value by at most half a cent. -/
theorem abs_round2_sub (x : ℚ) : |round2 x - x| ≤ 1 / 200 := by
  have h := abs_sub_round (x * 100)
  rw [abs_sub_comm] at h
  have h2 : round2 x - x = ((round (x * 100) : ℤ) - x * 100) / 100 := by
    unfold round2; ring
  rw [h2, abs_div]
  rw [abs_of_pos (by norm_num : (0:ℚ) < 100)]
  rw [div_le_div_iff₀ (by norm_num) (by norm_num)]
  linarith

theorem round2_mono {x y : ℚ} (h : x ≤ y) : round2 x ≤ round2 y := by
  unfold round2
  have := round_mono2 (mul_le_mul_of_nonneg_right h (by norm_num : (0:ℚ) ≤ 100))
  have hcast : ((round (x * 100) : ℤ) : ℚ) ≤ ((round (y * 100) : ℤ) : ℚ) := by
    exact_mod_cast this
  linarith

theorem round2_max (x y : ℚ) : round2 (max x y) = max (round2 x) (round2 y) := by
  rcases le_total x y with h | h
  · rw [max_eq_right h, max_eq_right (round2_mono h)]
  · rw [max_eq_left h, max_eq_left (round2_mono h)]

/-- Evaluation rule for `round` used on concrete inputs. -/
theorem round_eval {x : ℚ} {k : ℤ} (h1 : (k : ℚ) ≤ x + 1/2)
    (h2 : x + 1/2 < k + 1) : round x = k := by
  rw [round_eq]
  exact Int.floor_eq_iff.mpr ⟨h1, by exact_mod_cast h2⟩

/-- Evaluation rule for `round2` used on concrete inputs. -/
theorem round2_eval {x : ℚ} {k : ℤ} (h1 : (k : ℚ) ≤ x * 100 + 1/2)
    (h2 : x * 100 + 1/2 < k + 1) : round2 x = (k : ℚ) / 100 := by
  unfold round2
  rw [round_eval h1 h2]

/-- Evaluation rule for `round6` used on concrete inputs. -/
theorem round6_eval {x : ℚ} {k : ℤ} (h1 : (k : ℚ) ≤ x * 1000000 + 1/2)
    (h2 : x * 1000000 + 1/2 < k + 1) : round6 x = (k : ℚ) / 1000000 := by
  unfold round6
  rw [round_eval h1 h2]

/-- Half-up rounding of two parts of an integer total recovers the
total, provided neither part sits exactly on a half. -/
theorem round_add_round_eq {u : ℚ} (n : ℤ)
    (htie : ∀ k : ℤ, u ≠ (k : ℚ) + 1/2) :
    round u + round ((n : ℚ) - u) = n := by
  rw [round_eq, round_eq]
  have h1 : (n : ℚ) - u + 1 / 2 = -(u + 1 / 2) + ((n + 1 : ℤ) : ℚ) := by
    push_cast; ring
  rw [h1, Int.floor_add_int, Int.floor_neg]
  have hceil : ⌈u + 1/2⌉ = ⌊u + 1/2⌋ + 1 := by
    have hw : ∀ m : ℤ, u + 1/2 ≠ (m : ℚ) := by
      intro m hm
      exact htie (m - 1) (by push_cast; linarith)
    have hlt : ((⌊u + 1/2⌋ : ℤ) : ℚ) < u + 1/2 :=
      lt_of_le_of_ne (Int.floor_le _) (fun h => hw ⌊u + 1/2⌋ h.symm)
    have hlow : ⌊u + 1/2⌋ < ⌈u + 1/2⌉ := Int.lt_ceil.mpr hlt
    have hhigh : ⌈u + 1/2⌉ ≤ ⌊u + 1/2⌋ + 1 := by
      apply Int.ceil_le.mpr
      push_cast
      linarith [Int.lt_floor_add_one (u + 1/2)]
    omega
  omega

/-- Rounding the two stake parts of a $100 total to cents preserves
the total when both parts are at most $50:  the only possible loss
would be a simultaneous half-cent tie, which would force both parts
to equal $50 — an even number of half-cents. -/
theorem round2_add_round2 {x y : ℚ} (hxy : x + y = 100) (hx : x ≤ 50)
    (hy : y ≤ 50) : round2 x + round2 y = 100 := by
  unfold round2
  have key : round (x * 100) + round (y * 100) = 10000 := by
    have hsub : y * 100 = ((10000 : ℤ) : ℚ) - x * 100 := by push_cast; linarith
    rw [hsub]
    apply round_add_round_eq
    intro k hk
    have hk1 : (2 * k : ℚ) ≤ 9999 := by linarith
    have hk2 : (9999 : ℚ) ≤ 2 * k := by
      have hy100 : ((10000 : ℤ) : ℚ) - x * 100 ≤ 5000 := by push_cast; linarith
      linarith
    have e1 : (2 * k : ℤ) ≤ 9999 := by exact_mod_cast hk1
    have e2 : (9999 : ℤ) ≤ 2 * k := by exact_mod_cast hk2
    omega
  have : ((round (x * 100) : ℤ) : ℚ) + ((round (y * 100) : ℤ) : ℚ) = 10000 := by
    exact_mod_cast congrArg (fun z : ℤ => (z : ℚ)) key
  linarith

/-- If two stakes produce exactly equal payouts, rounding each stake
to cents keeps the payouts within half a cent times each leg's
decimal odds. -/
theorem round2_payout_close {x y pa pb : ℚ} (hpa : 0 < pa) (hpb : 0 < pb)
    (h : x / pa = y / pb) :
    |round2 x / pa - round2 y / pb| ≤ (1/pa + 1/pb) / 200 := by
  have key : round2 x / pa - round2 y / pb =
      (round2 x - x) / pa - (round2 y - y) / pb := by
    rw [sub_div, sub_div]
    rw [h]
    ring
  rw [key]
  have htri : |(round2 x - x) / pa - (round2 y - y) / pb| ≤
      |(round2 x - x) / pa| + |(round2 y - y) / pb| := by
    have := abs_add ((round2 x - x) / pa) (-((round2 y - y) / pb))
    rw [abs_neg] at this
    simpa [sub_eq_add_neg] using this
  refine htri.trans ?_
  rw [abs_div, abs_div, abs_of_pos hpa, abs_of_pos hpb]
  have step : |round2 x - x| / pa + |round2 y - y| / pb ≤
      (1/200) / pa + (1/200) / pb := by
    gcongr
    · exact abs_round2_sub x
    · exact abs_round2_sub y
  refine step.trans (le_of_eq ?_)
  ring

/-- Rounding an integer number of dollars to cents changes nothing. -/
theorem round2_int (n : ℤ) : round2 ((n : ℚ)) = n := by
  unfold round2
  rw [show ((n : ℚ) * 100) = ((n * 100 : ℤ) : ℚ) by push_cast; ring,
    round_intCast]
  push_cast
  ring

theorem round2_fifty : round2 (50 : ℚ) = 50 := by
  have h := round2_int 50
  norm_num at h
  exact h

/-! ## Claim C1: American odds round-trip -/

/-- The implied probability of any American price is strictly positive. -/
theorem american_to_implied_prob_pos (price : ℤ) :
    0 < american_to_implied_prob price := by
  unfold american_to_implied_prob
  split
  · apply div_pos
    · exact_mod_cast abs_pos.mpr (by omega)
    · have : (0:ℚ) ≤ ((|price| : ℤ) : ℚ) := by exact_mod_cast abs_nonneg price
      linarith
  · rename_i h
    push_neg at h
    apply div_pos (by norm_num)
    have : (0:ℚ) ≤ (price : ℚ) := by exact_mod_cast h
    linarith

/-- Claim C1 (amended): for every integer American price `p` with
`100 ≤ |p| ≤ 10000` other than `p = 100`, converting to an implied
probability and back is the identity.  (The original claim included
`p = 100`, which round-trips to `-100`: probability `1/2` is sent to
the favourite side by the `prob ≥ 0.5` branch.) -/
theorem roundtrip_american (p : ℤ) (h1 : 100 ≤ |p|) (_h2 : |p| ≤ 10000)
    (h3 : p ≠ 100) :
    implied_prob_to_american (american_to_implied_prob p) = some p := by
  rcases lt_or_le p 0 with hneg | hpos
  · -- favourite side: p ≤ -100
    have ha : 100 ≤ -p := by rwa [abs_of_neg hneg] at h1
    have hprob : american_to_implied_prob p = ((-p : ℤ) : ℚ) / (((-p : ℤ) : ℚ) + 100) := by
      unfold american_to_implied_prob
      rw [if_pos hneg, abs_of_neg hneg]
    set a : ℚ := ((-p : ℤ) : ℚ) with hadef
    have ha100 : (100 : ℚ) ≤ a := by rw [hadef]; exact_mod_cast ha
    have hapos : (0 : ℚ) < a := by linarith
    have hden : (0 : ℚ) < a + 100 := by linarith
    rw [hprob]
    unfold implied_prob_to_american
    rw [if_neg, if_pos]
    · have h1m : 1 - a / (a + 100) = 100 / (a + 100) := by field_simp
      have harg : a / (a + 100) * 100 / (100 / (a + 100)) = a := by
        field_simp
      rw [h1m, harg]
      rw [show a = ((-p : ℤ) : ℚ) from rfl, round_intCast, neg_neg]
    · -- 1/2 ≤ a / (a + 100), since 100 ≤ a
      rw [le_div_iff₀ hden]
      linarith
    · -- probability is in (0, 1)
      push_neg
      constructor
      · exact div_pos hapos hden
      · rw [div_lt_one hden]; linarith
  · -- underdog side: 101 ≤ p
    have hp : 101 ≤ p := by
      rw [abs_of_nonneg hpos] at h1
      omega
    have hprob : american_to_implied_prob p = (100 : ℚ) / ((p : ℚ) + 100) := by
      unfold american_to_implied_prob
      rw [if_neg (by omega)]
    set q : ℚ := (p : ℚ) with hqdef
    have hq : (101 : ℚ) ≤ q := by rw [hqdef]; exact_mod_cast hp
    have hden : (0 : ℚ) < q + 100 := by linarith
    rw [hprob]
    unfold implied_prob_to_american
    rw [if_neg, if_neg]
    · have h1m : 1 - 100 / (q + 100) = q / (q + 100) := by field_simp
      have harg : 100 * (q / (q + 100)) / (100 / (q + 100)) = q := by
        field_simp
      rw [h1m, harg]
      rw [hqdef, round_intCast]
    · -- probability is strictly below 1/2 when p > 100
      push_neg
      rw [div_lt_iff₀ hden]
      linarith
    · push_neg
      constructor
      · exact div_pos (by norm_num) hden
      · rw [div_lt_one hden]; linarith

/-- Any element `pyMin` returns is in the list. -/
theorem pyMin_mem {α : Type} {f : α → ℚ} {l : List α} {o : α}
    (h : pyMin f l = some o) : o ∈ l := by
  induction l with
  | nil => simp [pyMin] at h
  | cons x xs ih =>
    cases hm : pyMin f xs with
    | none =>
      rw [pyMin, hm] at h
      simp only [Option.some.injEq] at h
      subst h
      exact List.mem_cons_self x xs
    | some y =>
      rw [pyMin, hm] at h
      dsimp only at h
      by_cases hlt : f y < f x
      · rw [if_pos hlt] at h
        simp only [Option.some.injEq] at h
        subst h
        exact List.mem_cons_of_mem x (ih hm)
      · rw [if_neg hlt] at h
        simp only [Option.some.injEq] at h
        subst h
        exact List.mem_cons_self x xs

/-- Inversion for membership in `checkTwoOutcomeArb`: an emitted
opportunity comes from a two-entry dict whose per-side best offers
pass the distinct-bookmaker and minimum-edge guards. -/
theorem checkTwoOutcomeArb_mem {cfg : EngineCfg} {ev : Event} {mt : String}
    {data : List (String × List Offer)} {opp : ArbOpportunity}
    (h : opp ∈ checkTwoOutcomeArb cfg ev mt data) :
    ∃ nameA offersA nameB offersB bestA bestB,
      data = [(nameA, offersA), (nameB, offersB)] ∧
      pyMin (fun x => x.implied_prob) offersA = some bestA ∧
      pyMin (fun x => x.implied_prob) offersB = some bestB ∧
      bestA.bookmaker ≠ bestB.bookmaker ∧
      cfg.min_edge ≤ 1 - (bestA.implied_prob + bestB.implied_prob) ∧
      opp = crossBookOpp cfg ev mt nameA nameB bestA bestB := by
  match data with
  | [] => simp [checkTwoOutcomeArb] at h
  | [(nameA, offersA)] => simp [checkTwoOutcomeArb] at h
  | (p1 :: p2 :: p3 :: rest) => simp [checkTwoOutcomeArb] at h
  | [(nameA, offersA), (nameB, offersB)] =>
    refine ⟨nameA, offersA, nameB, offersB, ?_⟩
    simp only [checkTwoOutcomeArb] at h
    cases ha : pyMin (fun x => x.implied_prob) offersA with
    | none => rw [ha] at h; simp at h
    | some bestA =>
      cases hb : pyMin (fun x => x.implied_prob) offersB with
      | none => rw [ha, hb] at h; simp at h
      | some bestB =>
        rw [ha, hb] at h
        dsimp only at h
        by_cases hbm : bestA.bookmaker = bestB.bookmaker
        · rw [if_pos hbm] at h; simp at h
        · rw [if_neg hbm] at h
          by_cases hedge : 1 - (bestA.implied_prob + bestB.implied_prob) <
              cfg.min_edge
          · rw [if_pos hedge] at h; simp at h
          · rw [if_neg hedge] at h
            simp only [List.mem_singleton] at h
            exact ⟨bestA, bestB, rfl, rfl, rfl, hbm, not_lt.mp hedge, h⟩

/-- The two raw stakes always split the total exactly. -/
theorem twoLegRawStakes_sum {total pa pb : ℚ} (h : pa + pb ≠ 0) :
    (twoLegRawStakes total pa pb).1 + (twoLegRawStakes total pa pb).2 = total := by
  unfold twoLegRawStakes
  field_simp
  ring

/-- The two raw stakes earn the same exact payout on either leg. -/
theorem twoLegRawStakes_ratio {total pa pb : ℚ} (hpa : pa ≠ 0) (hpb : pb ≠ 0)
    (h : pa + pb ≠ 0) :
    (twoLegRawStakes total pa pb).1 / pa = (twoLegRawStakes total pa pb).2 / pb := by
  unfold twoLegRawStakes
  field_simp
  ring

/-- Claim C4 (amended): for every opportunity emitted by
`_check_two_outcome_arb` under the default hard caps
(`max_arb_total = 100`, `max_single_bet = 50`), with every offer's
implied probability derived from its American odds:
the two legs' payouts `stake · decimal_odds` agree to within
half a cent times the sum of the decimal odds (the spec's flat
±$0.01 bound fails: the payouts are exactly equal *before* the
final cent-rounding of each stake, and the rounding perturbs a
payout by up to `decimal_odds/200` on each leg); the rounded stakes
sum to exactly $100 when no clamping was needed, and when the
single-leg clamp fires the larger rounded stake is exactly $50. -/
theorem cross_book_stake_law {cfg : EngineCfg} {ev : Event} {mt : String}
    {data : List (String × List Offer)} {opp : ArbOpportunity}
    (hmem : opp ∈ checkTwoOutcomeArb cfg ev mt data)
    (htot : cfg.max_arb_total = 100) (hsingle : cfg.max_single_bet = 50)
    (hoffers : ∀ p ∈ data, ∀ o ∈ p.2,
      o.implied_prob = american_to_implied_prob o.odds) :
    ∃ la lb, opp.legs = [la, lb] ∧
      |la.stake * american_to_decimal la.odds -
          lb.stake * american_to_decimal lb.odds| ≤
        (american_to_decimal la.odds + american_to_decimal lb.odds) / 200 ∧
      (((twoLegRawStakes 100 la.implied_prob lb.implied_prob).1 ≤ 50 ∧
          (twoLegRawStakes 100 la.implied_prob lb.implied_prob).2 ≤ 50) →
        la.stake + lb.stake = 100) ∧
      (¬((twoLegRawStakes 100 la.implied_prob lb.implied_prob).1 ≤ 50 ∧
          (twoLegRawStakes 100 la.implied_prob lb.implied_prob).2 ≤ 50) →
        max la.stake lb.stake = 50) := by
  obtain ⟨nameA, offersA, nameB, offersB, bestA, bestB, hdata, hA, hB, hne,
    hedge, hopp⟩ := checkTwoOutcomeArb_mem hmem
  have hpaEq : bestA.implied_prob = american_to_implied_prob bestA.odds := by
    refine hoffers (nameA, offersA) ?_ bestA (pyMin_mem hA)
    rw [hdata]; exact List.mem_cons_self _ _
  have hpbEq : bestB.implied_prob = american_to_implied_prob bestB.odds := by
    refine hoffers (nameB, offersB) ?_ bestB (pyMin_mem hB)
    rw [hdata]; simp
  have hpa : 0 < bestA.implied_prob := hpaEq ▸ american_to_implied_prob_pos _
  have hpb : 0 < bestB.implied_prob := hpbEq ▸ american_to_implied_prob_pos _
  have hsumpos : 0 < bestA.implied_prob + bestB.implied_prob := by linarith
  have hdecA : american_to_decimal bestA.odds = 1 / bestA.implied_prob := by
    unfold american_to_decimal; rw [hpaEq]
  have hdecB : american_to_decimal bestB.odds = 1 / bestB.implied_prob := by
    unfold american_to_decimal; rw [hpbEq]
  subst hopp
  set pa := bestA.implied_prob with hpadef
  set pb := bestB.implied_prob with hpbdef
  set raw := twoLegRawStakes 100 pa pb with hrawdef
  have hrawsum : raw.1 + raw.2 = 100 := twoLegRawStakes_sum (ne_of_gt hsumpos)
  have hratio : raw.1 / pa = raw.2 / pb :=
    twoLegRawStakes_ratio (ne_of_gt hpa) (ne_of_gt hpb) (ne_of_gt hsumpos)
  refine ⟨⟨bestA.bookmaker, splitPipe nameA, bestA.odds, pa,
      (clampedStakes cfg pa pb).1, bestA.point⟩,
    ⟨bestB.bookmaker, splitPipe nameB, bestB.odds, pb,
      (clampedStakes cfg pa pb).2, bestB.point⟩,
    rfl, ?_, ?_, ?_⟩ <;> dsimp only
  · -- payout closeness
    rw [hdecA, hdecB, mul_one_div, mul_one_div]
    by_cases hcl : raw.1 ≤ 50 ∧ raw.2 ≤ 50
    · have hstakes : clampedStakes cfg pa pb = (round2 raw.1, round2 raw.2) := by
        simp only [clampedStakes, htot, hsingle, ← hrawdef]
        rw [if_neg (by push_neg; exact hcl)]
      rw [hstakes]
      exact round2_payout_close hpa hpb hratio
    · have hcond : raw.1 > 50 ∨ raw.2 > 50 := by
        rcases not_and_or.mp hcl with h | h
        · exact Or.inl (not_le.mp h)
        · exact Or.inr (not_le.mp h)
      have hstakes : clampedStakes cfg pa pb =
          (round2 (raw.1 * (50 / max raw.1 raw.2)),
           round2 (raw.2 * (50 / max raw.1 raw.2))) := by
        simp only [clampedStakes, htot, hsingle, ← hrawdef]
        rw [if_pos hcond]
      rw [hstakes]
      apply round2_payout_close hpa hpb
      rw [mul_div_right_comm, mul_div_right_comm, hratio]
  · -- stake sum without clamping
    intro hcl
    rw [← hrawdef] at hcl
    have hstakes : clampedStakes cfg pa pb = (round2 raw.1, round2 raw.2) := by
      simp only [clampedStakes, htot, hsingle, ← hrawdef]
      rw [if_neg (by push_neg; exact hcl)]
    rw [hstakes]
    exact round2_add_round2 hrawsum hcl.1 hcl.2
  · -- clamped: the larger stake is exactly the single-leg cap
    intro hcl
    rw [← hrawdef] at hcl
    have hcond : raw.1 > 50 ∨ raw.2 > 50 := by
      rcases not_and_or.mp hcl with h | h
      · exact Or.inl (not_le.mp h)
      · exact Or.inr (not_le.mp h)
    have hM : 0 < max raw.1 raw.2 := by
      rcases hcond with h | h
      · exact lt_of_lt_of_le (by linarith) (le_max_left _ _)
      · exact lt_of_lt_of_le (by linarith) (le_max_right _ _)
    have hstakes : clampedStakes cfg pa pb =
        (round2 (raw.1 * (50 / max raw.1 raw.2)),
         round2 (raw.2 * (50 / max raw.1 raw.2))) := by
      simp only [clampedStakes, htot, hsingle, ← hrawdef]
      rw [if_pos hcond]
    rw [hstakes]
    rw [← round2_max]
    have hmaxeq : max (raw.1 * (50 / max raw.1 raw.2))
        (raw.2 * (50 / max raw.1 raw.2)) = 50 := by
      rw [← max_mul_of_nonneg _ _ (le_of_lt (div_pos (by norm_num) hM))]
      field_simp
    rw [hmaxeq]
    unfold round2
    rw [show ((50:ℚ) * 100) = ((5000 : ℤ) : ℚ) by norm_num, round_intCast]
    norm_num

/-- Witness for the amended claim C1 at the concrete price `-110`. -/
theorem roundtrip_american_witness :
    implied_prob_to_american (american_to_implied_prob (-110)) = some (-110) :=
  roundtrip_american (-110) (by norm_num) (by norm_num) (by norm_num)

/-- Counterexample to claim C1 as stated: the price `+100` (implied
probability exactly `1/2`) round-trips to `-100`, not `+100`. -/
theorem roundtrip_american_counterexample :
    implied_prob_to_american (american_to_implied_prob 100) = some (-100) ∧
      (some (-100) : Option ℤ) ≠ some 100 := by
  constructor
  · have h : american_to_implied_prob 100 = 1/2 := by
      norm_num [american_to_implied_prob]
    rw [h]
    norm_num [implied_prob_to_american, round_eq]
  · decide

/-- Witness for the amended claim C4: two +150 offers at distinct
books; the engine emits the opportunity and the stake law holds. -/
theorem cross_book_stake_law_witness :
    ∃ la lb,
      (crossBookOpp defaultCfg evFix "h2h" "A" "B" offerWA offerWB).legs =
        [la, lb] ∧
      |la.stake * american_to_decimal la.odds -
          lb.stake * american_to_decimal lb.odds| ≤
        (american_to_decimal la.odds + american_to_decimal lb.odds) / 200 ∧
      (((twoLegRawStakes 100 la.implied_prob lb.implied_prob).1 ≤ 50 ∧
          (twoLegRawStakes 100 la.implied_prob lb.implied_prob).2 ≤ 50) →
        la.stake + lb.stake = 100) ∧
      (¬((twoLegRawStakes 100 la.implied_prob lb.implied_prob).1 ≤ 50 ∧
          (twoLegRawStakes 100 la.implied_prob lb.implied_prob).2 ≤ 50) →
        max la.stake lb.stake = 50) := by
  have hts : checkTwoOutcomeArb defaultCfg evFix "h2h" dataW =
      [crossBookOpp defaultCfg evFix "h2h" "A" "B" offerWA offerWB] := by
    norm_num [checkTwoOutcomeArb, pyMin, dataW, offerWA, offerWB, defaultCfg,
      mkEngine, MAX_SINGLE_LEG, MAX_ARB_TOTAL]
    decide
  have hmem : crossBookOpp defaultCfg evFix "h2h" "A" "B" offerWA offerWB ∈
      checkTwoOutcomeArb defaultCfg evFix "h2h" dataW := by
    rw [hts]; exact List.mem_singleton_self _
  have htot : defaultCfg.max_arb_total = 100 := by
    norm_num [defaultCfg, mkEngine, MAX_ARB_TOTAL, MAX_SINGLE_LEG]
  have hsingle : defaultCfg.max_single_bet = 50 := by
    norm_num [defaultCfg, mkEngine, MAX_ARB_TOTAL, MAX_SINGLE_LEG]
  have hoffers : ∀ p ∈ dataW, ∀ o ∈ p.2,
      o.implied_prob = american_to_implied_prob o.odds := by
    intro p hp o ho
    simp only [dataW, List.mem_cons, List.not_mem_nil, or_false] at hp
    rcases hp with rfl | rfl <;>
      simp only [List.mem_singleton, List.not_mem_nil, List.mem_cons,
        or_false] at ho <;> subst ho <;>
      norm_num [offerWA, offerWB, american_to_implied_prob]
  exact cross_book_stake_law hmem htot hsingle hoffers

/-- Counterexample to claim C4 as stated: at odds +2000 / -1700 the
engine emits a clamped opportunity whose two cent-rounded stakes pay
$52.92 and $900/17 ≈ $52.94 — a gap of $9/425 ≈ $0.021, beyond the
claimed ±$0.01 tolerance. -/
theorem cross_book_payout_counterexample :
    checkTwoOutcomeArb defaultCfg evFix "h2h" dataC =
      [crossBookOpp defaultCfg evFix "h2h" "A" "B" offerCA offerCB] ∧
    (crossBookOpp defaultCfg evFix "h2h" "A" "B" offerCA offerCB).legs.map
      (fun l => l.stake * american_to_decimal l.odds) = [1323/25, 900/17] ∧
    ¬ |(1323/25 : ℚ) - 900/17| ≤ 1/100 := by
  have hr1 : round2 ((300/119 : ℚ)) = 63/25 := by
    have h := @round2_eval (300/119 : ℚ) 252 (by norm_num) (by norm_num)
    rw [h]; norm_num
  have hstake : clampedStakes defaultCfg (1/21) (17/18) = (63/25, 50) := by
    simp only [clampedStakes, twoLegRawStakes, defaultCfg, mkEngine,
      MAX_SINGLE_LEG, MAX_ARB_TOTAL]
    norm_num
    exact ⟨hr1, round2_fifty⟩
  refine ⟨?_, ?_, ?_⟩
  · norm_num [checkTwoOutcomeArb, pyMin, dataC, offerCA, offerCB, defaultCfg,
      mkEngine, MAX_SINGLE_LEG, MAX_ARB_TOTAL]
    decide
  · simp only [crossBookOpp, offerCA, offerCB, hstake, List.map]
    norm_num [american_to_decimal, american_to_implied_prob]
  · rw [show (1323/25 : ℚ) - 900/17 = -(9/425) by norm_num, abs_neg,
      abs_of_pos (by norm_num : (0:ℚ) < 9/425)]
    norm_num

/-! ## Claim C6: spread pairing -/

/-- Membership in a fold that only appends. -/
theorem mem_foldl_append {α β : Type} (f : β → List α) (l : List β) :
    ∀ (init : List α) (x : α),
      x ∈ l.foldl (fun acc b => acc ++ f b) init → x ∈ init ∨ ∃ b ∈ l, x ∈ f b := by
  induction l with
  | nil => intro init x h; exact Or.inl h
  | cons b bs ih =>
    intro init x h
    rw [List.foldl_cons] at h
    rcases ih _ x h with hin | ⟨b', hb', hx⟩
    · rcases List.mem_append.mp hin with h1 | h2
      · exact Or.inl h1
      · exact Or.inr ⟨b, List.mem_cons_self _ _, h2⟩
    · exact Or.inr ⟨b', List.mem_cons_of_mem _ hb', hx⟩

/-- Inversion for the dict update: a member of the updated dict is an
untouched old entry, or carries the updated key with a value obtained
by applying the update to the old value (or to the default). -/
theorem mem_updGroup {κ β : Type} [DecidableEq κ] {k : κ} {init : β}
    {f : β → β} {l : List (κ × β)} {e : κ × β} (h : e ∈ updGroup k init f l) :
    e ∈ l ∨ ∃ v, e = (k, f v) ∧ (v = init ∨ (k, v) ∈ l) := by
  induction l with
  | nil =>
    simp only [updGroup, List.mem_singleton] at h
    exact Or.inr ⟨init, h, Or.inl rfl⟩
  | cons p rest ih =>
    obtain ⟨k', v⟩ := p
    rw [updGroup] at h
    by_cases hk : k' = k
    · subst hk
      rw [if_pos rfl] at h
      rcases List.mem_cons.mp h with rfl | hrest
      · exact Or.inr ⟨v, rfl, Or.inr (List.mem_cons_self _ _)⟩
      · exact Or.inl (List.mem_cons_of_mem _ hrest)
    · rw [if_neg hk] at h
      rcases List.mem_cons.mp h with rfl | hrest
      · exact Or.inl (List.mem_cons_self _ _)
      · rcases ih hrest with h1 | ⟨v', hv', hmem⟩
        · exact Or.inl (List.mem_cons_of_mem _ h1)
        · exact Or.inr ⟨v', hv', hmem.imp id (List.mem_cons_of_mem _)⟩

/-- Adding one spread outcome to the grouping preserves the group
shape invariant. -/
theorem spreadAdd_good {ev : Event} {bm : Bookmaker} {o : Outcome} {pt : ℚ}
    {acc : List (ℚ × (List Offer × List Offer))} (hpt : o.point = some pt)
    (hname : NameInEvent ev o.name)
    (hacc : ∀ e ∈ acc, GoodGroup ev e) :
    ∀ e ∈ spreadAdd bm o pt acc, GoodGroup ev e := by
  intro e he
  rcases mem_updGroup he with hin | ⟨v, rfl, hv⟩
  · exact hacc e hin
  · have hgv : GoodGroup ev (|pt|, v) := by
      rcases hv with rfl | hmem
      · exact ⟨fun o ho => absurd ho (List.not_mem_nil o),
          fun o ho => absurd ho (List.not_mem_nil o)⟩
      · exact hacc _ hmem
    by_cases hneg : pt < 0
    · constructor
      · intro x hx
        have hside : (|pt|, (if pt < 0 then (v.1 ++ [mkOffer bm o], v.2)
            else (v.1, v.2 ++ [mkOffer bm o]))).2.1 = v.1 ++ [mkOffer bm o] := by
          rw [if_pos hneg]
        rw [hside] at hx
        rcases List.mem_append.mp hx with hold | hnew
        · exact hgv.1 x hold
        · rw [List.mem_singleton] at hnew
          subst hnew
          refine ⟨?_, ?_, hname⟩
          · show o.point = some (-(|pt|))
            rw [hpt, abs_of_neg hneg, neg_neg]
          · show 0 < |pt|
            exact abs_pos.mpr (ne_of_lt hneg)
      · intro x hx
        have hside : (|pt|, (if pt < 0 then (v.1 ++ [mkOffer bm o], v.2)
            else (v.1, v.2 ++ [mkOffer bm o]))).2.2 = v.2 := by
          rw [if_pos hneg]
        rw [hside] at hx
        exact hgv.2 x hx
    · constructor
      · intro x hx
        have hside : (|pt|, (if pt < 0 then (v.1 ++ [mkOffer bm o], v.2)
            else (v.1, v.2 ++ [mkOffer bm o]))).2.1 = v.1 := by
          rw [if_neg hneg]
        rw [hside] at hx
        exact hgv.1 x hx
      · intro x hx
        have hside : (|pt|, (if pt < 0 then (v.1 ++ [mkOffer bm o], v.2)
            else (v.1, v.2 ++ [mkOffer bm o]))).2.2 = v.2 ++ [mkOffer bm o] := by
          rw [if_neg hneg]
        rw [hside] at hx
        rcases List.mem_append.mp hx with hold | hnew
        · exact hgv.2 x hold
        · rw [List.mem_singleton] at hnew
          subst hnew
          refine ⟨?_, abs_nonneg pt, hname⟩
          show o.point = some |pt|
          rw [hpt, abs_of_nonneg (not_lt.mp hneg)]

/-- Folding one bookmaker's spread outcomes preserves the invariant. -/
theorem spreadOutcomes_fold_good (ev : Event) (bm : Bookmaker)
    (outs : List Outcome)
    (hnames : ∀ oc ∈ outs, NameInEvent ev oc.name) :
    ∀ acc, (∀ e ∈ acc, GoodGroup ev e) →
      ∀ e ∈ outs.foldl (spreadCollectOutcome bm) acc, GoodGroup ev e := by
  induction outs with
  | nil => intro acc hacc e he; rw [List.foldl_nil] at he; exact hacc e he
  | cons o os ih =>
    intro acc hacc e he
    rw [List.foldl_cons] at he
    refine ih (fun oc hoc => hnames oc (List.mem_cons_of_mem _ hoc)) _ ?_ e he
    intro e' he'
    unfold spreadCollectOutcome at he'
    cases hpt : o.point with
    | none => rw [hpt] at he'; exact hacc e' he'
    | some pt =>
      rw [hpt] at he'
      exact spreadAdd_good hpt (hnames o (List.mem_cons_self _ _)) hacc e' he'

/-- Folding the bookmakers preserves the invariant. -/
theorem spreadBms_fold_good (ev : Event) (bs : List Bookmaker)
    (hbs : ∀ bm ∈ bs, bm ∈ ev.bookmakers) :
    ∀ acc, (∀ e ∈ acc, GoodGroup ev e) →
      ∀ e ∈ bs.foldl spreadCollectBm acc, GoodGroup ev e := by
  induction bs with
  | nil => intro acc hacc e he; rw [List.foldl_nil] at he; exact hacc e he
  | cons bm bs' ih =>
    intro acc hacc e he
    rw [List.foldl_cons] at he
    refine ih (fun b hb => hbs b (List.mem_cons_of_mem _ hb)) _ ?_ e he
    intro e' he'
    unfold spreadCollectBm at he'
    cases hm : find_market bm.markets "spreads" with
    | none => rw [hm] at he'; exact hacc e' he'
    | some mkt =>
      rw [hm] at he'
      refine spreadOutcomes_fold_good ev bm mkt.outcomes ?_ acc hacc e' he'
      intro oc hoc
      exact ⟨bm, hbs bm (List.mem_cons_self _ _),
        mkt, List.mem_of_find?_eq_some hm, oc, hoc, rfl⟩

/-- Every group produced by the spread collection satisfies the
shape invariant. -/
theorem spreadGroups_good (ev : Event) :
    ∀ entry ∈ spreadGroups ev, GoodGroup ev entry := by
  intro entry h
  exact spreadBms_fold_good ev ev.bookmakers (fun _ hb => hb) []
    (fun e he => absurd he (List.not_mem_nil e)) entry h

/-- Claim C6 (amended): every spreads opportunity pairs one leg at
point `-c` (drawn from the negative side of the group for `c`) with
one leg at point `+c` (from the positive side), `c > 0`; and when no
outcome name contains the engine's internal "|" separator (so that
the display-name cleanup `split("|")[0]` is the identity on them),
the two legs carry different outcome names.  (Unrestricted, the
name-difference part fails: see the counterexample.) -/
theorem spread_arb_pair_law {cfg : EngineCfg} {ev : Event}
    {opp : ArbOpportunity} (hmem : opp ∈ detectSpreadArb cfg ev)
    (hpipe : ∀ bm ∈ ev.bookmakers, ∀ m ∈ bm.markets, ∀ oc ∈ m.outcomes,
      splitPipe oc.name = oc.name) :
    ∃ la lb c, opp.legs = [la, lb] ∧ 0 < c ∧
      la.point = some (-c) ∧ lb.point = some c ∧
      la.outcome ≠ lb.outcome := by
  have hsplit : ∀ s, NameInEvent ev s → splitPipe s = s := by
    intro s hs
    obtain ⟨bm, hbm, m, hm, oc, hoc, rfl⟩ := hs
    exact hpipe bm hbm m hm oc hoc
  unfold detectSpreadArb at hmem
  rcases mem_foldl_append _ _ _ _ hmem with hinit | ⟨entry, hentry, hopp⟩
  · exact absurd hinit (List.not_mem_nil _)
  have hgood := spreadGroups_good ev entry hentry
  unfold spreadPairOpps at hopp
  rcases hn : entry.2.1 with _ | ⟨a, negs'⟩
  · rw [hn] at hopp; simp at hopp
  rcases hp : entry.2.2 with _ | ⟨b, poss'⟩
  · rw [hn, hp] at hopp; simp at hopp
  rw [hn, hp] at hopp
  dsimp only at hopp
  by_cases hab : a.outcome = b.outcome
  · rw [if_pos hab] at hopp; simp at hopp
  rw [if_neg hab] at hopp
  obtain ⟨nameA, offersA, nameB, offersB, bestA, bestB, hdata, hA, hB, _, _,
    hoppEq⟩ := checkTwoOutcomeArb_mem hopp
  have hdc : nameA = a.outcome ∧ offersA = a :: negs' ∧
      nameB = b.outcome ∧ offersB = b :: poss' := by
    simp only [List.cons.injEq, Prod.mk.injEq, and_true] at hdata
    exact ⟨hdata.1.1.symm, hdata.1.2.symm, hdata.2.1.symm, hdata.2.2.symm⟩
  obtain ⟨rfl, rfl, rfl, rfl⟩ := hdc
  have hbestA : bestA ∈ entry.2.1 := by rw [hn]; exact pyMin_mem hA
  have hbestB : bestB ∈ entry.2.2 := by rw [hp]; exact pyMin_mem hB
  have hga := hgood.1 bestA hbestA
  have hgb := hgood.2 bestB hbestB
  have haName : NameInEvent ev a.outcome :=
    (hgood.1 a (by rw [hn]; exact List.mem_cons_self _ _)).2.2
  have hbName : NameInEvent ev b.outcome :=
    (hgood.2 b (by rw [hp]; exact List.mem_cons_self _ _)).2.2
  subst hoppEq
  refine ⟨_, _, entry.1, rfl, hga.2.1, ?_, ?_, ?_⟩ <;> dsimp only
  · exact hga.1
  · exact hgb.1
  · rw [hsplit _ haName, hsplit _ hbName]
    exact hab

/-- Witness for the amended claim C6 at a concrete -2 / +2 spread
pair across two books. -/
theorem spread_arb_pair_law_witness :
    ∃ la lb c,
      (crossBookOpp defaultCfg evS "spreads" "T1" "T2"
          ⟨"b1", "T1", 150, 2/5, some (-2)⟩
          ⟨"b2", "T2", 150, 2/5, some 2⟩).legs = [la, lb] ∧ 0 < c ∧
      la.point = some (-c) ∧ lb.point = some c ∧
      la.outcome ≠ lb.outcome := by
  have hls : detectSpreadArb defaultCfg evS =
      [crossBookOpp defaultCfg evS "spreads" "T1" "T2"
        ⟨"b1", "T1", 150, 2/5, some (-2)⟩
        ⟨"b2", "T2", 150, 2/5, some 2⟩] := by
    norm_num [detectSpreadArb, spreadGroups, spreadCollectBm,
      spreadCollectOutcome, spreadAdd, updGroup, find_market, mkOffer,
      spreadPairOpps, checkTwoOutcomeArb, pyMin, evS, defaultCfg, mkEngine,
      MAX_SINGLE_LEG, MAX_ARB_TOTAL, american_to_implied_prob,
      abs_of_neg, abs_of_nonneg]
    rw [if_neg (by decide : ¬("T1" = "T2")), if_neg (by decide : ¬("b1" = "b2"))]
  have hmem : crossBookOpp defaultCfg evS "spreads" "T1" "T2"
      ⟨"b1", "T1", 150, 2/5, some (-2)⟩ ⟨"b2", "T2", 150, 2/5, some 2⟩ ∈
      detectSpreadArb defaultCfg evS := by
    rw [hls]; exact List.mem_singleton_self _
  exact spread_arb_pair_law hmem (by decide)

/-- Counterexample to claim C6 as stated: with a team named "A|x"
against "A", the pair passes the distinct-key check, but the "|"-
cleanup makes both emitted legs carry the same outcome name "A". -/
theorem spread_same_name_counterexample :
    (detectSpreadArb defaultCfg evP).map
      (fun o => o.legs.map (fun l => l.outcome)) = [["A", "A"]] := by
  have h1 : splitPipe "A|x" = "A" := by decide
  have h2 : splitPipe "A" = "A" := by decide
  norm_num [detectSpreadArb, spreadGroups, spreadCollectBm,
    spreadCollectOutcome, spreadAdd, updGroup, find_market, mkOffer,
    spreadPairOpps, checkTwoOutcomeArb, pyMin, evP, defaultCfg, mkEngine,
    MAX_SINGLE_LEG, MAX_ARB_TOTAL, american_to_implied_prob, crossBookOpp,
    h1, h2, abs_of_neg, abs_of_nonneg]
  decide

/-! ## Claim C5: value-bet consensus -/

/-- Claim C5 (amended): every emitted value bet is drawn from a group
of at least 3 offers (not necessarily 3 distinct bookmakers — see the
counterexample) and was compared against that group's arithmetic-mean
implied probability, with an edge at or above the configured
threshold. -/
theorem value_bet_consensus_law {cfg : EngineCfg} {ev : Event} {mt : String}
    {vb : ArbOpportunity} (hmem : vb ∈ detectValueBets cfg ev mt) :
    ∃ g ∈ valueGroups ev mt, ∃ entry ∈ g.2,
      3 ≤ g.2.length ∧
      consensusOf g.2 =
        ((g.2.map (fun x => x.implied_prob)).sum) / (g.2.length : ℚ) ∧
      cfg.min_edge_value_bet ≤ consensusOf g.2 - entry.implied_prob ∧
      vb = valueBetOpp cfg ev mt (consensusOf g.2 - entry.implied_prob) entry := by
  unfold detectValueBets at hmem
  rcases mem_foldl_append _ _ _ _ hmem with h0 | ⟨g, hg, hvb⟩
  · exact absurd h0 (List.not_mem_nil _)
  unfold valueGroupOpps at hvb
  by_cases hlen : g.2.length < 3
  · rw [if_pos hlen] at hvb
    exact absurd hvb (List.not_mem_nil _)
  rw [if_neg hlen] at hvb
  obtain ⟨entry, hentry, hf⟩ := List.mem_filterMap.mp hvb
  by_cases hedge : consensusOf g.2 - entry.implied_prob < cfg.min_edge_value_bet
  · rw [if_pos hedge] at hf
    exact absurd hf (by simp)
  · rw [if_neg hedge] at hf
    simp only [Option.some.injEq] at hf
    exact ⟨g, hg, entry, hentry, not_lt.mp hlen, rfl, not_lt.mp hedge, hf.symm⟩

/-- Witness for the amended claim C5: three books on "A" produce a
value bet for the +150 book against the 8/15 consensus. -/
theorem value_bet_consensus_law_witness :
    ∃ g ∈ valueGroups evV "h2h", ∃ entry ∈ g.2,
      3 ≤ g.2.length ∧
      consensusOf g.2 =
        ((g.2.map (fun x => x.implied_prob)).sum) / (g.2.length : ℚ) ∧
      defaultCfg.min_edge_value_bet ≤ consensusOf g.2 - entry.implied_prob ∧
      valueBetOpp defaultCfg evV "h2h" (2/15) offerV3 =
        valueBetOpp defaultCfg evV "h2h"
          (consensusOf g.2 - entry.implied_prob) entry := by
  have hvg : valueGroups evV "h2h" =
      [(("A", none), [offerV1, offerV2, offerV3])] := by
    norm_num [valueGroups, addToGroup, updGroup, find_market, mkOffer, evV,
      american_to_implied_prob, offerV1, offerV2, offerV3]
  have hdv : detectValueBets defaultCfg evV "h2h" =
      [valueBetOpp defaultCfg evV "h2h" (2/15) offerV3] := by
    unfold detectValueBets
    rw [hvg]
    simp only [List.foldl_cons, List.foldl_nil, List.nil_append]
    unfold valueGroupOpps
    norm_num [consensusOf, offerV1, offerV2, offerV3, List.filterMap_cons,
      defaultCfg, mkEngine, MAX_SINGLE_LEG, MAX_ARB_TOTAL]
  exact value_bet_consensus_law
    (by rw [hdv]; exact List.mem_singleton_self _)

/-- Counterexample to claim C5 as stated: a value bet is emitted from
an event in which no consensus group has 3 distinct bookmakers —
book b1's duplicated outcome row is counted twice. -/
theorem value_bet_distinct_books_counterexample :
    detectValueBets defaultCfg evD "h2h" ≠ [] ∧
    ∀ g ∈ valueGroups evD "h2h",
      (g.2.map (fun o => o.bookmaker)).dedup.length ≤ 2 := by
  have hvg : valueGroups evD "h2h" =
      [(("A", none), [offerD1, offerD2, offerD3])] := by
    norm_num [valueGroups, addToGroup, updGroup, find_market, mkOffer, evD,
      american_to_implied_prob, offerD1, offerD2, offerD3]
  constructor
  · have hdv : detectValueBets defaultCfg evD "h2h" =
        [valueBetOpp defaultCfg evD "h2h" (2/15) offerD3] := by
      unfold detectValueBets
      rw [hvg]
      simp only [List.foldl_cons, List.foldl_nil, List.nil_append]
      unfold valueGroupOpps
      norm_num [consensusOf, offerD1, offerD2, offerD3, List.filterMap_cons,
        defaultCfg, mkEngine, MAX_SINGLE_LEG, MAX_ARB_TOTAL]
    rw [hdv]
    simp
  · intro g hg
    rw [hvg] at hg
    simp only [List.mem_singleton] at hg
    subst hg
    decide

/-! ## Claims C7 and C10: opportunity tracker -/

/-- Writing a key and reading it back returns the written value. -/
theorem alookup_aset_self {β : Type} (k : String) (v : β)
    (l : List (String × β)) : alookup k (aset k v l) = some v := by
  induction l with
  | nil => simp [aset, alookup]
  | cons p rest ih =>
    obtain ⟨k', v'⟩ := p
    rw [aset]
    by_cases hk : k' = k
    · rw [if_pos hk, alookup, if_pos hk]
    · rw [if_neg hk, alookup, if_neg hk]
      exact ih

/-- Writing one key leaves every other key's value unchanged. -/
theorem alookup_aset_other {β : Type} {k k' : String} (h : k' ≠ k) (v : β)
    (l : List (String × β)) : alookup k' (aset k v l) = alookup k' l := by
  induction l with
  | nil =>
    rw [aset, alookup, alookup, if_neg (fun hkk => h hkk.symm)]
    rfl
  | cons p rest ih =>
    obtain ⟨k0, v0⟩ := p
    rw [aset]
    by_cases hk : k0 = k
    · subst hk
      rw [if_pos rfl, alookup, alookup, if_neg (fun hkk => h hkk.symm),
        if_neg (fun hkk => h hkk.symm)]
    · rw [if_neg hk, alookup, alookup]
      by_cases hk0 : k0 = k'
      · rw [if_pos hk0, if_pos hk0]
      · rw [if_neg hk0, if_neg hk0]
        exact ih

/-- Claim C7 (amended): for an identity already known to the tracker,
re-ingesting it at time `t` emits nothing when `t` is within TTL of
the *most recent prior presentation* (`last_seen`), and emits the
refreshed record with the notified bit cleared when `t - last_seen`
reaches the TTL.  (The original claim measured the window from the
first sighting `t₀`; the code measures it from `last_seen`, which
every presentation — including suppressed ones — refreshes, so an
opportunity re-presented often enough is never re-emitted: see the
counterexample.) -/
theorem ingest_ttl_law (st : TrackerState) (o : ArbOpportunity) (now : ℤ)
    (r : OppRecord) (hr : alookup (makeId o) st.records = some r) :
    (now - r.last_seen < st.ttl_seconds → (ingest now [o] st).1 = []) ∧
    (st.ttl_seconds ≤ now - r.last_seen →
      (ingest now [o] st).1 =
        [{ r with last_seen := now, edge := o.edge, notified := false }]) := by
  constructor
  · intro hlt
    unfold ingest
    rw [List.foldl_cons, List.foldl_nil]
    show (match ingestOne now st o with
      | (st', some r') => (([] : List OppRecord) ++ [r'], st')
      | (st', none) => ([], st')).1 = []
    unfold ingestOne
    dsimp only
    rw [hr]
    dsimp only
    rw [if_pos hlt]
  · intro hge
    unfold ingest
    rw [List.foldl_cons, List.foldl_nil]
    show (match ingestOne now st o with
      | (st', some r') => (([] : List OppRecord) ++ [r'], st')
      | (st', none) => ([], st')).1 = _
    unfold ingestOne
    dsimp only
    rw [hr]
    dsimp only
    rw [if_neg (not_lt.mpr hge)]
    dsimp only
    rw [List.nil_append]

/-- Witness for the amended claim C7: a record last seen at 100 and
re-presented at 250 (TTL 300) is suppressed. -/
theorem ingest_ttl_law_witness : (ingest 250 [oT] stT2).1 = [] :=
  (ingest_ttl_law stT2 oT 250 recT2 rfl).1 (by decide)

/-- Counterexample to claim C7 as stated: first seen at 0, notified,
re-presented (and suppressed) at 200, then presented again at 400 —
400 − t₀ ≥ TTL and the notified bit is set, yet nothing is emitted,
because the suppressed presentation at 200 refreshed `last_seen`. -/
theorem ingest_ttl_counterexample :
    ∃ r, alookup (makeId oT)
        ((ingest 200 [oT] (mark_notified (makeId oT)
          (ingest 0 [oT] (freshTracker 300)).2)).2).records = some r ∧
      r.first_seen = 0 ∧ r.notified = true ∧ (300 : ℤ) ≤ 400 - r.first_seen ∧
      (ingest 400 [oT] ((ingest 200 [oT] (mark_notified (makeId oT)
        (ingest 0 [oT] (freshTracker 300)).2)).2)).1 = [] := by
  refine ⟨_, rfl, rfl, rfl, by decide, rfl⟩

/-- Claim C10: `mark_notified` on an unknown id is a no-op (and in
particular cannot raise); on a known id it only sets that record's
notified bit, leaving its other fields, every other record, and the
TTL unchanged. -/
theorem mark_notified_law (oppId : String) (st : TrackerState) :
    (alookup oppId st.records = none → mark_notified oppId st = st) ∧
    (∀ r, alookup oppId st.records = some r →
      (mark_notified oppId st).ttl_seconds = st.ttl_seconds ∧
      alookup oppId (mark_notified oppId st).records =
        some { r with notified := true } ∧
      ∀ k, k ≠ oppId →
        alookup k (mark_notified oppId st).records = alookup k st.records) := by
  constructor
  · intro hnone
    unfold mark_notified
    rw [hnone]
  · intro r hr
    unfold mark_notified
    rw [hr]
    refine ⟨rfl, ?_, ?_⟩
    · exact alookup_aset_self _ _ _
    · intro k hk
      exact alookup_aset_other hk _ _

/-- Witness for claim C10: both the unknown-id no-op and the
known-id single-field update, on a one-record tracker. -/
theorem mark_notified_law_witness :
    mark_notified "zz" stT = stT ∧
    alookup "k1" (mark_notified "k1" stT).records =
      some { recT with notified := true } :=
  ⟨(mark_notified_law "zz" stT).1 rfl,
    ((mark_notified_law "k1" stT).2 recT rfl).2.1⟩

/-! ## Claim C9: reserve release -/

/-- Claim C9: a successful `release_from_reserve(amount)` moves
exactly `min(amount, 100, reserve)` dollars — a positive quantity —
from reserve to bankroll, conserving their sum and keeping the
reserve nonnegative, and touches no other field but `last_updated`;
a refused release leaves the state entirely unchanged. -/
theorem release_from_reserve_law (now : ℤ) (amount : ℚ) (s : BudgetState) :
    ((release_from_reserve now amount s).1 = true →
      0 < min (min amount 100) s.reserve ∧
      (release_from_reserve now amount s).2.reserve =
        s.reserve - min (min amount 100) s.reserve ∧
      (release_from_reserve now amount s).2.betting_bankroll =
        s.betting_bankroll + min (min amount 100) s.reserve ∧
      (release_from_reserve now amount s).2.reserve +
          (release_from_reserve now amount s).2.betting_bankroll =
        s.reserve + s.betting_bankroll ∧
      0 ≤ (release_from_reserve now amount s).2.reserve ∧
      (release_from_reserve now amount s).2.total_budget = s.total_budget ∧
      (release_from_reserve now amount s).2.api_budget = s.api_budget ∧
      (release_from_reserve now amount s).2.api_spent = s.api_spent ∧
      (release_from_reserve now amount s).2.betting_pnl = s.betting_pnl ∧
      (release_from_reserve now amount s).2.bets_placed = s.bets_placed ∧
      (release_from_reserve now amount s).2.bets_settled = s.bets_settled ∧
      (release_from_reserve now amount s).2.bets = s.bets ∧
      (release_from_reserve now amount s).2.created_at = s.created_at) ∧
    ((release_from_reserve now amount s).1 = false →
      (release_from_reserve now amount s).2 = s) := by
  unfold release_from_reserve
  by_cases hcan : s.can_release_reserve = false
  · rw [if_pos hcan]
    exact ⟨fun h => absurd h (by simp), fun _ => rfl⟩
  · rw [if_neg hcan]
    dsimp only
    by_cases hle : min (min amount 100) s.reserve ≤ 0
    · rw [if_pos hle]
      exact ⟨fun h => absurd h (by simp), fun _ => rfl⟩
    · rw [if_neg hle]
      refine ⟨fun _ => ?_, fun h => absurd h (by simp)⟩
      have hpos : 0 < min (min amount 100) s.reserve := not_le.mp hle
      refine ⟨hpos, rfl, rfl, by dsimp only [save]; ring, ?_, rfl, rfl, rfl,
        rfl, rfl, rfl, rfl, rfl⟩
      dsimp only [save]
      have := min_le_right (min amount 100) s.reserve
      linarith

/-- Witness for claim C9 at a concrete eligible state: releasing
$250 moves exactly $100. -/
theorem release_from_reserve_law_witness :
    0 < min (min (250 : ℚ) 100) sW.reserve ∧
    (release_from_reserve 7 250 sW).2.reserve =
      sW.reserve - min (min 250 100) sW.reserve ∧
    (release_from_reserve 7 250 sW).2.betting_bankroll =
      sW.betting_bankroll + min (min 250 100) sW.reserve ∧
    (release_from_reserve 7 250 sW).2.reserve +
        (release_from_reserve 7 250 sW).2.betting_bankroll =
      sW.reserve + sW.betting_bankroll ∧
    0 ≤ (release_from_reserve 7 250 sW).2.reserve ∧
    (release_from_reserve 7 250 sW).2.total_budget = sW.total_budget ∧
    (release_from_reserve 7 250 sW).2.api_budget = sW.api_budget ∧
    (release_from_reserve 7 250 sW).2.api_spent = sW.api_spent ∧
    (release_from_reserve 7 250 sW).2.betting_pnl = sW.betting_pnl ∧
    (release_from_reserve 7 250 sW).2.bets_placed = sW.bets_placed ∧
    (release_from_reserve 7 250 sW).2.bets_settled = sW.bets_settled ∧
    (release_from_reserve 7 250 sW).2.bets = sW.bets ∧
    (release_from_reserve 7 250 sW).2.created_at = sW.created_at := by
  have htrue : (release_from_reserve 7 250 sW).1 = true := by
    norm_num [release_from_reserve, sW, initialState,
      BudgetState.can_release_reserve]
  exact (release_from_reserve_law 7 250 sW).1 htrue

/-! ## Claim C8: cross-platform same-game gate -/

/-- Claim C8 (amended): every sportsbook offer retained for the
consensus of one Kalshi side (the list `matchedSB`, over which
`matchKalshiSide` computes its consensus) comes from an event
containing the resolved opponent, and — whenever the contract
market's close time is present — from an event whose commence time
is within 43 200 seconds of it.  (The original claim stated the
12-hour proximity unconditionally; with the close time absent the
code skips the check entirely: see the counterexample.) -/
theorem cross_platform_same_game_gate {opponent : String}
    {kalshi_close : Option ℤ} {entries : List SBEntry} {e : SBEntry}
    (h : e ∈ matchedSB opponent kalshi_close entries) :
    (opponent = e.event.home_team ∨ opponent = e.event.away_team) ∧
    ∀ cl, kalshi_close = some cl → |cl - e.event.commence_time| ≤ 43200 := by
  unfold matchedSB at h
  obtain ⟨_, hcond⟩ := List.mem_filter.mp h
  simp only [Bool.and_eq_true, Bool.or_eq_true, beq_iff_eq] at hcond
  refine ⟨hcond.1, ?_⟩
  intro cl hcl
  have hg := hcond.2
  rw [hcl] at hg
  unfold sameGameGate at hg
  exact of_decide_eq_true hg

/-- Witness for the amended claim C8: an offer from the matching
game, close time present and equal to the commence time. -/
theorem cross_platform_same_game_gate_witness :
    ("B" = sbE.event.home_team ∨ "B" = sbE.event.away_team) ∧
    ∀ cl, (some 1000 : Option ℤ) = some cl →
      |cl - sbE.event.commence_time| ≤ 43200 := by
  have hm : matchedSB "B" (some 1000) [sbE] = [sbE] := by
    unfold matchedSB
    rw [List.filter_cons_of_pos (by decide), List.filter_nil]
  exact cross_platform_same_game_gate
    (by rw [hm]; exact List.mem_singleton_self _)

/-- Counterexample to claim C8 as stated: the home-side contract has
no close time, so the offer `sbE` passes the gate with no time check
at all, and a cross-platform opportunity is emitted from it. -/
theorem cross_platform_gate_counterexample :
    (matchKalshiGame defaultCfg gC sbIdx).length = 1 ∧
    matchedSB "B" none [sbE] = [sbE] ∧
    gC.home_market = some kmC ∧ kmC.close_time = none := by
  refine ⟨?_, ?_, rfl, rfl⟩
  · norm_num [matchKalshiGame, matchKalshiSide, gC, kmC, sbIdx, sbE, evK,
      alookup, matchedSB, sameGameGate, implied_prob_to_american,
      defaultCfg, mkEngine, MAX_SINGLE_LEG, MAX_ARB_TOTAL]
    rw [show |(3/10 : ℚ)| = 3/10 from abs_of_pos (by norm_num)]
    norm_num
  · unfold matchedSB
    rw [List.filter_cons_of_pos (by decide), List.filter_nil]

/-! ## Claims C2 and C3: budget tracker bet lifecycle -/

/-- Decomposition of a `find?` success: the list splits at the first
match, and `updateFirst` rewrites exactly that element. -/
theorem updateFirst_decomp {α : Type} {p : α → Bool} (f : α → α)
    {l : List α} {x : α} (h : l.find? p = some x) :
    ∃ l1 l2, l = l1 ++ x :: l2 ∧ (∀ y ∈ l1, p y = false) ∧
      updateFirst p f l = l1 ++ f x :: l2 := by
  induction l with
  | nil => simp [List.find?] at h
  | cons a rest ih =>
    cases hpa : p a with
    | true =>
      rw [List.find?_cons_of_pos _ hpa] at h
      simp only [Option.some.injEq] at h
      subst h
      refine ⟨[], rest, rfl, by simp, ?_⟩
      rw [updateFirst, if_pos hpa]
      rfl
    | false =>
      rw [List.find?_cons_of_neg _ (by simp [hpa])] at h
      obtain ⟨l1, l2, hsplit, hl1, hupd⟩ := ih h
      refine ⟨a :: l1, l2, by rw [hsplit]; rfl, ?_, ?_⟩
      · intro y hy
        rcases List.mem_cons.mp hy with rfl | hy'
        · exact hpa
        · exact hl1 y hy'
      · rw [updateFirst, if_neg (by simp [hpa]), hupd]
        rfl

/-- Effect on the three bet-list measures of settling one pending
record in place (replacing pending `x` by non-pending `y`). -/
theorem measures_append_settle (l1 l2 : List BetRecord) (x y : BetRecord)
    (hx : x.result = some BetResult.pending)
    (hy : y.result ≠ some BetResult.pending) :
    pendingStakes (l1 ++ y :: l2) = pendingStakes (l1 ++ x :: l2) - x.stake ∧
    settledPnl (l1 ++ y :: l2) = settledPnl (l1 ++ x :: l2) + y.pnl ∧
    settledCount (l1 ++ y :: l2) = settledCount (l1 ++ x :: l2) + 1 ∧
    (l1 ++ y :: l2).length = (l1 ++ x :: l2).length := by
  refine ⟨?_, ?_, ?_, by simp⟩
  · unfold pendingStakes
    rw [List.filter_append, List.filter_append,
      List.filter_cons_of_neg (by simp [hy]),
      List.filter_cons_of_pos (by simp [hx])]
    simp only [List.map_append, List.sum_append, List.map_cons,
      List.sum_cons]
    ring
  · unfold settledPnl
    rw [List.filter_append, List.filter_append,
      List.filter_cons_of_pos (by simp [hy]),
      List.filter_cons_of_neg (by simp [hx])]
    simp only [List.map_append, List.sum_append, List.map_cons,
      List.sum_cons]
    ring
  · unfold settledCount
    rw [List.filter_append, List.filter_append,
      List.filter_cons_of_pos (by simp [hy]),
      List.filter_cons_of_neg (by simp [hx])]
    simp only [List.length_append, List.length_cons]
    omega

/-- Appending a fresh pending record to the list leaves the settled
measures unchanged and grows the pending stake by its stake. -/
theorem measures_append_pending (l : List BetRecord) (x : BetRecord)
    (hx : x.result = some BetResult.pending) :
    pendingStakes (l ++ [x]) = pendingStakes l + x.stake ∧
    settledPnl (l ++ [x]) = settledPnl l ∧
    settledCount (l ++ [x]) = settledCount l ∧
    (l ++ [x]).length = l.length + 1 := by
  refine ⟨?_, ?_, ?_, by simp⟩
  · unfold pendingStakes
    rw [List.filter_append, List.filter_cons_of_pos (by simp [hx]),
      List.filter_nil]
    simp
  · unfold settledPnl
    rw [List.filter_append, List.filter_cons_of_neg (by simp [hx]),
      List.filter_nil]
    simp
  · unfold settledCount
    rw [List.filter_append, List.filter_cons_of_neg (by simp [hx]),
      List.filter_nil]
    simp

theorem budgetInv_record_bet (now : ℤ) (eid out bk : String) (odds : ℤ)
    (stake : ℚ) {s : BudgetState} (hinv : BudgetInv s) :
    BudgetInv (record_bet now eid out bk odds stake s).2 := by
  unfold record_bet
  by_cases hgt : stake > s.available_bankroll
  · rw [if_pos hgt]; exact hinv
  · rw [if_neg hgt]
    dsimp only [save]
    obtain ⟨_, h2, h3, h4⟩ := hinv
    obtain ⟨hp, hs, hc, hL⟩ :=
      measures_append_pending s.bets ⟨s.bets_placed + 1, eid, out, bk, odds,
        if stake > 50 then 50 else stake, some BetResult.pending, 0, 0, now,
        none⟩ rfl
    refine ⟨rfl, ?_, ?_, ?_⟩
    · show s.betting_pnl = settledPnl (s.bets ++ [_])
      rw [hs, h2]
    · show s.bets_placed + 1 = (s.bets ++ [_]).length
      rw [hL, h3]
    · show s.bets_settled = settledCount (s.bets ++ [_])
      rw [hc, h4]

theorem budgetInv_record_win (now : ℤ) (betId : ℕ) {s : BudgetState}
    (hinv : BudgetInv s) : BudgetInv (record_win now betId s) := by
  unfold record_win
  cases hfind : findBet betId s.bets with
  | none => exact hinv
  | some bet =>
    dsimp only
    by_cases hpend : bet.result ≠ some BetResult.pending
    · rw [if_pos hpend]; exact hinv
    · rw [if_neg hpend]
      push_neg at hpend
      unfold findBet at hfind
      obtain ⟨l1, l2, hsplit, _, hupd⟩ := updateFirst_decomp
        (fun b => { b with
          payout := round2 (winPayout bet.odds bet.stake)
          pnl := round2 (winPayout bet.odds bet.stake - bet.stake)
          result := some BetResult.win
          settled_at := some now }) hfind
      obtain ⟨_, h2, h3, h4⟩ := hinv
      obtain ⟨hp, hs, hc, hL⟩ := measures_append_settle l1 l2 bet
        { bet with
          payout := round2 (winPayout bet.odds bet.stake)
          pnl := round2 (winPayout bet.odds bet.stake - bet.stake)
          result := some BetResult.win
          settled_at := some now } hpend (by simp)
      dsimp only [save]
      rw [hupd]
      refine ⟨rfl, ?_, ?_, ?_⟩
      · show s.betting_pnl + round2 (winPayout bet.odds bet.stake - bet.stake) =
          settledPnl (l1 ++ _ :: l2)
        rw [hs, ← hsplit, h2]
      · show s.bets_placed = (l1 ++ _ :: l2).length
        rw [hL, ← hsplit, h3]
      · show s.bets_settled + 1 = settledCount (l1 ++ _ :: l2)
        rw [hc, ← hsplit, h4]

theorem budgetInv_record_loss (now : ℤ) (betId : ℕ) {s : BudgetState}
    (hinv : BudgetInv s) : BudgetInv (record_loss now betId s) := by
  unfold record_loss
  cases hfind : findBet betId s.bets with
  | none => exact hinv
  | some bet =>
    dsimp only
    by_cases hpend : bet.result ≠ some BetResult.pending
    · rw [if_pos hpend]; exact hinv
    · rw [if_neg hpend]
      push_neg at hpend
      unfold findBet at hfind
      obtain ⟨l1, l2, hsplit, _, hupd⟩ := updateFirst_decomp
        (fun b => { b with
          payout := 0
          pnl := -b.stake
          result := some BetResult.loss
          settled_at := some now }) hfind
      obtain ⟨_, h2, h3, h4⟩ := hinv
      obtain ⟨hp, hs, hc, hL⟩ := measures_append_settle l1 l2 bet
        { bet with
          payout := 0
          pnl := -bet.stake
          result := some BetResult.loss
          settled_at := some now } hpend (by simp)
      dsimp only [save]
      rw [hupd]
      refine ⟨rfl, ?_, ?_, ?_⟩
      · show s.betting_pnl + -bet.stake = settledPnl (l1 ++ _ :: l2)
        rw [hs, ← hsplit, h2]
      · show s.bets_placed = (l1 ++ _ :: l2).length
        rw [hL, ← hsplit, h3]
      · show s.bets_settled + 1 = settledCount (l1 ++ _ :: l2)
        rw [hc, ← hsplit, h4]

theorem budgetInv_record_void (now : ℤ) (betId : ℕ) {s : BudgetState}
    (hinv : BudgetInv s)
    (hsafe : ∀ b, findBet betId s.bets = some b →
      b.result = some BetResult.pending) :
    BudgetInv (record_void now betId s) := by
  unfold record_void
  cases hfind : findBet betId s.bets with
  | none => exact hinv
  | some bet =>
    dsimp only
    have hpend : bet.result = some BetResult.pending := hsafe bet hfind
    unfold findBet at hfind
    obtain ⟨l1, l2, hsplit, _, hupd⟩ := updateFirst_decomp
      (fun b => { b with
        payout := b.stake
        pnl := 0
        result := some BetResult.void
        settled_at := some now }) hfind
    obtain ⟨_, h2, h3, h4⟩ := hinv
    obtain ⟨hp, hs, hc, hL⟩ := measures_append_settle l1 l2 bet
      { bet with
        payout := bet.stake
        pnl := 0
        result := some BetResult.void
        settled_at := some now } hpend (by simp)
    dsimp only [save]
    rw [hupd]
    refine ⟨rfl, ?_, ?_, ?_⟩
    · show s.betting_pnl = settledPnl (l1 ++ _ :: l2)
      rw [hs, ← hsplit, h2]
      simp
    · show s.bets_placed = (l1 ++ _ :: l2).length
      rw [hL, ← hsplit, h3]
    · show s.bets_settled + 1 = settledCount (l1 ++ _ :: l2)
      rw [hc, ← hsplit, h4]

/-- One safe operation preserves the budget invariant. -/
theorem budgetInv_applyOp {s : BudgetState} (hinv : BudgetInv s)
    (op : BudgetOp) (hsafe : voidSafe s op) : BudgetInv (applyOp s op) := by
  cases op with
  | bet now eid out bk odds stake =>
    exact budgetInv_record_bet now eid out bk odds stake hinv
  | win now betId => exact budgetInv_record_win now betId hinv
  | loss now betId => exact budgetInv_record_loss now betId hinv
  | void now betId => exact budgetInv_record_void now betId hinv hsafe

theorem budgetInv_foldl :
    ∀ (ops : List BudgetOp) (s : BudgetState), BudgetInv s →
      SafeSeq s ops → BudgetInv (ops.foldl applyOp s) := by
  intro ops
  induction ops with
  | nil => intro s hinv _; exact hinv
  | cons op rest ih =>
    intro s hinv hsafe
    rw [List.foldl_cons]
    exact ih _ (budgetInv_applyOp hinv op hsafe.1) hsafe.2

/-- Claim C2 (amended): starting from a fresh budget state, any
finite sequence of `record_bet`, `record_win`, `record_loss` and
`record_void` calls in which every `record_void` targets a bet that
is still pending preserves the account invariants: `pending_stakes`
is the stake sum over pending records, `betting_pnl` the P&L sum
over settled (non-pending) records, `bets_placed` the record count,
and `bets_settled` the settled-record count.  (Unrestricted the
claim fails: `record_void` lacks the pending guard the other two
settle calls have, and re-settling a record breaks the counters —
see the counterexample and claim C3.) -/
theorem budget_invariants (t0 : ℤ) (ops : List BudgetOp)
    (hsafe : SafeSeq (initialState t0) ops) : BudgetInv (runOps t0 ops) := by
  refine budgetInv_foldl ops (initialState t0) ⟨rfl, rfl, rfl, rfl⟩ hsafe

/-- Witness for the amended claim C2: place a $10 bet and win it. -/
theorem budget_invariants_witness :
    BudgetInv (runOps 0 [BudgetOp.bet 3 "e" "o" "b" (-110) 10,
      BudgetOp.win 5 1]) :=
  budget_invariants 0 _ ⟨trivial, trivial, trivial⟩

/-- Counterexample to claim C2 as stated: place one bet and void it
twice.  After the sequence, `bets_settled` is 2 but only one record
is non-pending, so the reachable-state invariant fails. -/
theorem budget_invariant_counterexample :
    (runOps 0 [BudgetOp.bet 0 "e" "o" "b" (-110) 10, BudgetOp.void 1 1,
      BudgetOp.void 2 1]).bets_settled = 2 ∧
    settledCount (runOps 0 [BudgetOp.bet 0 "e" "o" "b" (-110) 10,
      BudgetOp.void 1 1, BudgetOp.void 2 1]).bets = 1 := by
  have hop1 : applyOp (initialState 0)
      (BudgetOp.bet 0 "e" "o" "b" (-110) 10) = sB := by
    norm_num [applyOp, record_bet, initialState, sB, betB, save,
      BudgetState.available_bankroll, BudgetState.active_bankroll,
      BudgetState.pending_stakes, pendingStakes]
  have hrun : runOps 0 [BudgetOp.bet 0 "e" "o" "b" (-110) 10,
      BudgetOp.void 1 1, BudgetOp.void 2 1] =
      record_void 2 1 (record_void 1 1 sB) := by
    unfold runOps
    rw [List.foldl_cons, hop1]
    rfl
  rw [hrun]
  exact ⟨rfl, rfl⟩

/-- Claim C3 names the intended behaviour and the code violates it:
`record_void` carries no pending guard, so after a bet settles as a
win, a subsequent `record_void` on the same id is *not* a no-op — it
overwrites the record (win → void, P&L zeroed, payout reset to the
stake, `settled_at` refreshed) and increments `bets_settled` a
second time, while `betting_pnl` keeps the win's contribution. -/
theorem record_void_resettles :
    (record_win 5 1 sB).bets_settled = 1 ∧
    (∃ b, findBet 1 (record_win 5 1 sB).bets = some b ∧
      b.result = some BetResult.win) ∧
    (record_void 9 1 (record_win 5 1 sB)).bets_settled = 2 ∧
    ∃ b, findBet 1 (record_void 9 1 (record_win 5 1 sB)).bets = some b ∧
      b.result = some BetResult.void ∧ b.pnl = 0 ∧ b.payout = b.stake ∧
      b.settled_at = some 9 :=
  ⟨rfl, ⟨_, rfl, rfl⟩, rfl, ⟨_, rfl, rfl, rfl, rfl, rfl⟩⟩

end ArbBot
